import Mathlib

/-!
# TrekUtils drift-chamber track reconstruction (`trek::ChamberHandler`)

Shallow embedding of `src/common/trek/chamberhandler.cpp`.

Conventions of the embedding:
* `uint32_t` values are natural numbers, the subtraction wraps modulo `2 ^ 32`;
* `std::vector` is `List`, `std::array<T, 4>` is `Fin 4 → T`;
* a thrown exception (or a crash) is `none`;
* the function-static scratch variables of the sign resolver are an explicit
  `Scratch` state passed in and out;
* `std::atan` and `std::cos` are parameters (`Libm`).

The source is embedded twice, with two readings of `double`.

* Exact arithmetic (namespace `trek`): a `double` is a rational number (`ℚ`),
  and the only non-finite value the code produces on purpose,
  `numeric_limits<double>::infinity()`, is the extra constructor
  `Deviation.inf`. This reading carries the algebraic facts (the fit solves the
  normal equations, the correction formula, the enumeration order, the index
  arithmetic) and the worked events whose numbers are exact in binary64.
* IEEE-754 arithmetic (namespace `trek.ieee`): a `double` is a binary64 value
  (`ieee.Double`), every operation is the exact result rounded once to nearest,
  ties to even, with overflow to the infinities, signed zeros and NaN;
  `std::pow(x, 2)` is the correctly rounded square, and no operation is fused
  or carried out in extended precision. This reading carries the facts that
  depend on how computed values compare: which sign variant and which index
  combination win, when nothing is selected at all (overflow), and what the
  fit returns on points that are collinear only in exact arithmetic.
-/

namespace trek

/-! ## Data model -/

/-- Modelled from the spec: `vecmath::Vec2` (declared in `math/vec.hpp`, not part
of the sources at hand) is a 2-D point with coordinates `x()` and `y()`. -/
structure Vec2 where
  x : ℚ
  y : ℚ
deriving DecidableEq, Repr

/-- Modelled from the spec: `vecmath::Line2` (declared in `math/lines.hpp`, not
part of the sources at hand) is a line with slope `k()` and intercept `b()`. -/
structure Line2 where
  k : ℚ
  b : ℚ
deriving DecidableEq, Repr

/-- The two library functions used by the systematic correction. -/
structure Libm where
  atan : ℚ → ℚ
  cos : ℚ → ℚ

/-- Values of `TrackDescription::deviation`: a finite double or `+infinity`. -/
inductive Deviation where
  | fin (q : ℚ)
  | inf
deriving DecidableEq, Repr

/-- The comparison `a < b` of two doubles. -/
def Deviation.lt : Deviation → Deviation → Prop
  | .fin a, .fin b => a < b
  | .fin _, .inf => True
  | .inf, _ => False

instance : LT Deviation := ⟨Deviation.lt⟩

instance Deviation.decLt : (a b : Deviation) → Decidable (a < b)
  | .fin a, .fin b => inferInstanceAs (Decidable (a < b))
  | .fin _, .inf => isTrue trivial
  | .inf, _ => isFalse (fun h => h)

abbrev Points := List Vec2
abbrev ChamberTimes := Fin 4 → List Nat
abbrev ChamberDistances := Fin 4 → List ℚ
abbrev TrackDistances := Fin 4 → ℚ
abbrev TrackTimes := Fin 4 → Nat
abbrev Indecies := Fin 4 → Nat

/-- `WireParameters`: time-zero offset (`uint32_t`) and drift speed. -/
structure WireParameters where
  offset : Nat
  speed : ℚ

/-- `ChamberDescription::getParameters()`; the other members are not read. -/
abbrev ChamberParameters := Fin 4 → WireParameters

/-- `TrackDescription`. -/
structure TrackDescription where
  line : Line2
  points : Points
  deviation : Deviation
  times : TrackTimes
deriving DecidableEq

/-- A default-constructed `TrackDescription`: no points; the line and the times
are indeterminate in C++ and are never read before being assigned. -/
def TrackDescription.empty : TrackDescription :=
  ⟨⟨0, 0⟩, [], .fin 0, fun _ => 0⟩

/-- The assignment `track.times = times`. -/
def withTimes (track : TrackDescription) (times : TrackTimes) : TrackDescription :=
  { track with times := times }

/-- The function-static `tempPoints` and `tempLine` of the sign resolver. -/
structure Scratch where
  tempPoints : Points
  tempLine : Line2

/-- `ChamberHandler::mWires`. -/
def mWires : Fin 4 → Vec2 :=
  ![⟨41, 3/4⟩, ⟨51, -3/4⟩, ⟨61, 3/4⟩, ⟨71, -3/4⟩]

/-- The scratch state at program start: `tempPoints{mWires[0..3]}`. -/
def Scratch.init : Scratch :=
  ⟨[mWires 0, mWires 1, mWires 2, mWires 3], ⟨0, 0⟩⟩

/-- `template <typename T> int sign(T val)`. -/
def sign (val : ℚ) : Int :=
  (if 0 < val then 1 else 0) - (if val < 0 then 1 else 0)

/-! ## Line fitter -/

/-- The four running sums of `leastSquares`, in loop order. -/
structure Sums where
  sumX : ℚ
  sumY : ℚ
  sumXY : ℚ
  sumXX : ℚ

def sumsStep (s : Sums) (p : Vec2) : Sums :=
  ⟨s.sumX + p.x, s.sumY + p.y, s.sumXY + p.x * p.y, s.sumXX + p.x * p.x⟩

def sums (points : Points) : Sums :=
  points.foldl sumsStep ⟨0, 0, 0, 0⟩

/-- The residual loop of `leastSquares`: `dev += pow((k*x + b) - y, 2)`. -/
def devLoop (line : Line2) (points : Points) : ℚ :=
  points.foldl (fun dev p => dev + ((line.k * p.x + line.b) - p.y) ^ 2) 0

/-- `ChamberHandler::leastSquares(points, line)`: the returned double and the
value of the reference parameter `line` afterwards. -/
def leastSquares (points : Points) (line : Line2) : ℚ × Line2 :=
  if points.length < 2 then (-1, line)
  else
    let s := sums points
    let n : ℚ := points.length
    let exp := n * s.sumXX - s.sumX * s.sumX
    if exp ≠ 0 ∧ |exp| > 1 / 10 ^ 60 then
      let k := (n * s.sumXY - s.sumX * s.sumY) / exp
      let b := (s.sumY - k * s.sumX) / n
      let line' : Line2 := ⟨k, b⟩
      (devLoop line' points, line')
    else (-1, line)

/-! ## Sign resolver -/

/-- The write `points[i].y() = y` on a vector of points. -/
def setY : Points → Nat → ℚ → Points
  | [], _, _ => []
  | p :: ps, 0, y => ⟨p.x, y⟩ :: ps
  | p :: ps, i + 1, y => p :: setY ps i y

/-- The read `points[i].y()`. -/
def getY (points : Points) (i : Nat) : ℚ :=
  (points.getD i ⟨0, 0⟩).y

/-- The indices `0, 1, 2, 3` of a `std::array<T, 4>`. -/
def wireIdx : List (Fin 4) := [0, 1, 2, 3]

/-- The inner loop of the sign resolver for permutation `i`: for each wire `j`,
`tempPoints[j].y() = (i & (1 << j)) ? -distances[j] : distances[j]` followed by
`tempPoints[j].y() += mWires[j].y()`. -/
def writeSigns (distances : TrackDistances) (i : Nat) (tempPoints : Points) : Points :=
  wireIdx.foldl
    (fun pts (j : Fin 4) =>
      setY pts j
        ((if i &&& (1 <<< j.val) ≠ 0 then -(distances j) else distances j) + (mWires j).y))
    tempPoints

/-- One iteration of the outer loop of the sign resolver. -/
def signStep (distances : TrackDistances) (st : TrackDescription × Scratch) (i : Nat) :
    TrackDescription × Scratch :=
  let tempPoints := writeSigns distances i st.2.tempPoints
  let fit := leastSquares tempPoints st.2.tempLine
  let tempDev := fit.1
  let tempLine := fit.2
  if tempDev ≠ -1 ∧ Deviation.fin tempDev < st.1.deviation then
    ({ st.1 with deviation := .fin tempDev, line := tempLine, points := tempPoints },
      ⟨tempPoints, tempLine⟩)
  else (st.1, ⟨tempPoints, tempLine⟩)

/-- `ChamberHandler::createTrackDescription(const TrackDistances&)`, the sign
resolver, with the static scratch state before and after the call. -/
def createTrackDescriptionOfDistances (s : Scratch) (distances : TrackDistances) :
    TrackDescription × Scratch :=
  let numPermutations := 2 ^ 4
  (List.range numPermutations).foldl (signStep distances)
    ({ TrackDescription.empty with deviation := .inf }, s)

/-! ## Systematic corrector -/

/-- `ChamberHandler::getSystemError(r, ang)`. -/
def getSystemError (m : Libm) (r ang : ℚ) : ℚ :=
  r * (1 / m.cos ang - 1)

/-- One iteration of the loop of `systemError`; `none` is `return false`. -/
def systemErrorStep (m : Libm) (track : TrackDescription) (i : Nat) : Option TrackDescription :=
  let y := getY track.points i
  let trackSign := sign y
  let w := sign ((if h : i < 4 then mWires ⟨i, h⟩ else ⟨0, 0⟩).y)
  if trackSign * w = 1 then
    let r := if |y| > 31 / 5 then 31 / 5 else y
    some { track with
      points := setY track.points i (y + trackSign * getSystemError m r (m.atan track.line.k)) }
  else if trackSign * w = -1 then
    let r := if |y| > 18 / 5 then 18 / 5 else y
    some { track with
      points := setY track.points i (y + trackSign * getSystemError m r (m.atan track.line.k)) }
  else none

/-- `ChamberHandler::systemError(track)`: `none` when it returns `false`,
otherwise the track as it has been modified in place. -/
def systemError (m : Libm) (track : TrackDescription) : Option TrackDescription :=
  ((List.range track.points.length).foldlM (systemErrorStep m) track).map fun t =>
    let fit := leastSquares t.points t.line
    { t with deviation := .fin fit.1, line := fit.2 }

/-! ## Distance converter and hit selector -/

/-- Subtraction of two `uint32_t` values. -/
def u32sub (a b : Nat) : Nat :=
  (a + 2 ^ 32 - b % 2 ^ 32) % 2 ^ 32

/-- The inner loop of `getDistances` for one wire. -/
def wireDistances (params : WireParameters) (times : List Nat) : List ℚ :=
  times.foldl
    (fun distances msr =>
      if msr > params.offset then
        distances ++ [((u32sub msr params.offset : Nat) : ℚ) * params.speed]
      else distances)
    []

/-- `ChamberHandler::getDistances`. -/
def getDistances (eventTimes : ChamberTimes) (chamDesc : ChamberParameters) : ChamberDistances :=
  fun wire => wireDistances (chamDesc wire) (eventTimes wire)

/-- `numeric_limits<size_t>::max()`. -/
def sizeMax : Nat := 2 ^ 64 - 1

/-- `ChamberHandler::getDepth`. -/
def getDepth (eventDistances : ChamberDistances) : Nat :=
  wireIdx.foldl
    (fun depth (w : Fin 4) =>
      if (eventDistances w).length < depth then (eventDistances w).length else depth)
    sizeMax

/-- The element access `v.at(idx % v.size())`: `none` on a division by zero or
an index out of range. -/
def atMod {α : Type} (v : List α) (idx : Nat) : Option α :=
  if v.length = 0 then none else v[idx % v.length]?

/-- `ChamberHandler::createTrackDistances`. -/
def createTrackDistances (eventDistances : ChamberDistances) (indices : Indecies) :
    Option TrackDistances := do
  let d0 ← atMod (eventDistances 0) (indices 0)
  let d1 ← atMod (eventDistances 1) (indices 1)
  let d2 ← atMod (eventDistances 2) (indices 2)
  let d3 ← atMod (eventDistances 3) (indices 3)
  pure ![d0, d1, d2, d3]

/-- `ChamberHandler::createTrackTimes`. -/
def createTrackTimes (eventTimes : ChamberTimes) (indices : Indecies) : Option TrackTimes := do
  let t0 ← atMod (eventTimes 0) (indices 0)
  let t1 ← atMod (eventTimes 1) (indices 1)
  let t2 ← atMod (eventTimes 2) (indices 2)
  let t3 ← atMod (eventTimes 3) (indices 3)
  pure ![t0, t1, t2, t3]

/-! ## Reconstruction orchestrator -/

/-- The `if` statement of the innermost loop body: the comparison of the
candidate `tempTrackDesc` (with the scratch state left by the sign resolver)
against the best track so far. -/
def keepBest (eventTimes : ChamberTimes) (ind : Indecies) (trackDesc : TrackDescription)
    (r : TrackDescription × Scratch) : Option (TrackDescription × Scratch) :=
  let tempTrackDesc := r.1
  if tempTrackDesc.deviation ≠ .fin (-1) ∧ tempTrackDesc.deviation < trackDesc.deviation then do
    let times ← createTrackTimes eventTimes ind
    pure (withTimes tempTrackDesc times, r.2)
  else pure (trackDesc, r.2)

/-- The body of the innermost loop of `createTrackDescription(eventTimes, chamDesc)`. -/
def searchBody (eventTimes : ChamberTimes) (eventDistances : ChamberDistances)
    (st : TrackDescription × Scratch) (ind : Indecies) : Option (TrackDescription × Scratch) := do
  let distances ← createTrackDistances eventDistances ind
  keepBest eventTimes ind st.1 (createTrackDescriptionOfDistances st.2 distances)

/-- The four nested loops over the per-wire candidate indices. -/
def search (eventTimes : ChamberTimes) (eventDistances : ChamberDistances)
    (st : TrackDescription × Scratch) : Option (TrackDescription × Scratch) :=
  (List.range (eventDistances 0).length).foldlM (fun st i0 =>
    (List.range (eventDistances 1).length).foldlM (fun st i1 =>
      (List.range (eventDistances 2).length).foldlM (fun st i2 =>
        (List.range (eventDistances 3).length).foldlM (fun st i3 =>
          searchBody eventTimes eventDistances st ![i0, i1, i2, i3]) st) st) st) st

/-- `ChamberHandler::createTrackDescription(eventTimes, chamDesc)`, the
reconstruction: `none` when it throws, otherwise the returned track. -/
def createTrackDescription (m : Libm) (s : Scratch) (eventTimes : ChamberTimes)
    (chamDesc : ChamberParameters) : Option TrackDescription :=
  let eventDistances := getDistances eventTimes chamDesc
  let depth := getDepth eventDistances
  if depth = 1 then
    match search eventTimes eventDistances ({ TrackDescription.empty with deviation := .inf }, s) with
    | none => none
    | some (trackDesc, _) =>
      if trackDesc.deviation ≠ .inf then systemError m trackDesc else none
  else none

/-! ## Specification-side notions -/

/-- The sum of squared residuals of a line over a point set. -/
def ssr (line : Line2) (points : Points) : ℚ :=
  (points.map fun p => (line.k * p.x + line.b - p.y) ^ 2).sum

/-- The point set of sign variant `v` of a four-distance combination:
`x_i = wire[i].position`, `y_i = wire[i].offset + (bit i of v ? -d_i : +d_i)`. -/
def variantPoints (d : TrackDistances) (v : Nat) : Points :=
  wireIdx.map fun i => ⟨(mWires i).x, (mWires i).y + (if v.testBit i then -(d i) else d i)⟩

/-- An instance of `std::atan` and `std::cos` for the worked examples. A rational
number cannot hold the angle itself, so the angle `atan k` is represented by
its tangent `k`, and `cos` sends that representative to the exact value of
`cos (atan k) = 1 / sqrt (1 + k ^ 2)` at the two slopes where the examples
depend on it: `1` at slope `0` and `4 / 5` at slope `3 / 4`. -/
def exampleLibm : Libm :=
  ⟨fun k => k, fun a => if a = 3 / 4 then 4 / 5 else 1⟩

/-! ### Worked events -/

/-- Raw times of the event used against C1: wires 0, 1 and 2 carry two hits
each, wire 3 one; with speed `1 / 4` and offset `0` the distances are
`(12 | 10.5), (3 | 11.5), (3 | 10), 12`. -/
def timesTwoTracks : ChamberTimes := ![[48, 42], [12, 46], [12, 40], [48]]

/-- Calibration with offset `0` and speed `1 / 4` on every wire. -/
def quarterSpeed : ChamberParameters := fun _ => ⟨0, 1 / 4⟩

/-- Raw times of the event used against C3: wire 0 carries the times `5` and
`22`. -/
def timesDropped : ChamberTimes := ![[5, 22], [3], [3], [12]]

/-- Calibration with speed `1` on every wire and offset `10` on wire 0, so
that the time `5` of wire 0 is dropped by the time filter. -/
def offsetTen : ChamberParameters := ![⟨10, 1⟩, ⟨0, 1⟩, ⟨0, 1⟩, ⟨0, 1⟩]

/-- A candidate of slope `3 / 4` and deviation `0` through the points
`(41, -11.25), (51, -3.75), (61, 3.75), (71, 11.25)`: the best sign variant of
the distances `12, 3, 3, 12`. -/
def steepTrack : TrackDescription :=
  ⟨⟨3 / 4, -42⟩, [⟨41, -45 / 4⟩, ⟨51, -15 / 4⟩, ⟨61, 15 / 4⟩, ⟨71, 45 / 4⟩], .fin 0, fun _ => 0⟩

/-- Raw times of the end-to-end scenario: one hit at time `10` on every wire. -/
def timesTen : ChamberTimes := ![[10], [10], [10], [10]]

/-- Calibration with offset `0` and speed `1` on every wire. -/
def unitSpeed : ChamberParameters := fun _ => ⟨0, 1⟩

/-- A scratch state as an earlier call may leave it: the wire positions with
arbitrary y-coordinates and an arbitrary line. -/
def usedScratch : Scratch :=
  ⟨[⟨41, 5⟩, ⟨51, -7⟩, ⟨61, 0⟩, ⟨71, 99⟩], ⟨3, -8⟩⟩

/-- The scratch point buffer holds four points at the wire positions: it is
initialised from `mWires` and only its y-coordinates are ever written. -/
def ScratchOk (s : Scratch) : Prop :=
  s.tempPoints.map (fun p => p.x) = wireIdx.map fun i => (mWires i).x

instance (s : Scratch) : Decidable (ScratchOk s) := by
  unfold ScratchOk; infer_instance

/-- All index combinations `(i0, i1, i2, i3)` with `i_w < n w`, in the order
of the four nested loops. -/
def combinations (n : Fin 4 → Nat) : List Indecies :=
  (List.range (n 0)).flatMap fun i0 =>
    (List.range (n 1)).flatMap fun i1 =>
      (List.range (n 2)).flatMap fun i2 =>
        (List.range (n 3)).map fun i3 => ![i0, i1, i2, i3]

/-- The distances an index combination selects, one per wire. -/
def distancesAt (eventDistances : ChamberDistances) (ind : Indecies) : TrackDistances :=
  fun w => (eventDistances w).getD (ind w) 0

/-- The raw times found at the positions of an index combination. -/
def timesAt (eventTimes : ChamberTimes) (ind : Indecies) : TrackTimes :=
  fun w => (eventTimes w).getD (ind w) 0

/-- The candidate of an index combination before the systematic correction:
the best sign variant of its distances (the sign resolver run on the freshly
initialised scratch state) together with the times stored for it. -/
def candidate (eventTimes : ChamberTimes) (eventDistances : ChamberDistances) (ind : Indecies) :
    TrackDescription :=
  withTimes (createTrackDescriptionOfDistances Scratch.init (distancesAt eventDistances ind)).1
    (timesAt eventTimes ind)

/-- Lexicographic order on index combinations. -/
def lexLt (a b : Indecies) : Prop :=
  a 0 < b 0 ∨ (a 0 = b 0 ∧ (a 1 < b 1 ∨ (a 1 = b 1 ∧ (a 2 < b 2 ∨ (a 2 = b 2 ∧ a 3 < b 3)))))

/-- The static scratch state a call of `createTrackDescription(eventTimes,
chamDesc)` leaves behind: the one left by the last run of the sign resolver, or
the state on entry when the event is not eligible. -/
def scratchAfter (s : Scratch) (eventTimes : ChamberTimes) (chamDesc : ChamberParameters) :
    Scratch :=
  let eventDistances := getDistances eventTimes chamDesc
  if getDepth eventDistances = 1 then
    match search eventTimes eventDistances ({ TrackDescription.empty with deviation := .inf }, s) with
    | none => s
    | some (_, s') => s'
  else s

/-! ### Systematic correction, point by point -/

/-- The clamp limit for a point of wire `i` with transverse coordinate `y`:
`6.2` when the point is on the side of the wire's nominal offset, `3.6` when it
is on the opposite side. -/
def clampLimit (i : Fin 4) (y : ℚ) : ℚ :=
  if sign y = sign (mWires i).y then 31 / 5 else 18 / 5

/-- The value `r` of the correction as the code computes it: `y` itself within
the limit, the limit (a positive number, whatever the sign of `y`) beyond it. -/
def clampR (i : Fin 4) (y : ℚ) : ℚ :=
  if |y| ≤ clampLimit i y then y else clampLimit i y

/-- The corrected coordinate `y + s * r * (1 / cos (atan k) - 1)` with the `r`
of the code. -/
def correctedY (m : Libm) (k : ℚ) (i : Fin 4) (y : ℚ) : ℚ :=
  y + sign y * clampR i y * (1 / m.cos (m.atan k) - 1)

/-- The four corrected points of a candidate whose line has slope `k`. -/
def correctedPoints (m : Libm) (k : ℚ) (points : Points) : Points :=
  List.zipWith (fun i p => ⟨p.x, correctedY m k i p.y⟩) wireIdx points

/-! ## The program over IEEE-754 doubles

The second embedding of the same source: every `double` is a binary64 value and
every arithmetic operation is the exact result rounded once to nearest (ties to
even), with overflow to the infinities, signed zeros and NaN. The integer
types, the containers and the exceptions are embedded as above, and the
definitions that do not touch a `double` (`createTrackTimes`, `atMod`,
`u32sub`, `wireIdx`, `sizeMax`) are shared. -/

namespace ieee

/-- An IEEE-754 binary64 value: a finite number (`fin 0` is `+0`), `-0`, the two
infinities, or a NaN (all NaNs are identified). -/
inductive Double where
  | fin (q : ℚ)
  | negZero
  | posInf
  | negInf
  | nan
deriving DecidableEq, Repr

namespace Double

/-- The zero of the given sign bit. -/
def mkZero (neg : Bool) : Double :=
  if neg then negZero else fin 0

/-- The infinity of the given sign bit. -/
def mkInf (neg : Bool) : Double :=
  if neg then negInf else posInf

/-- The least `b` at or above the start with `n < 2 ^ 2 ^ b`, by at most `fuel`
steps. -/
def bitsNeeded : Nat → Nat → Nat → Nat
  | 0, b, _ => b
  | fuel + 1, b, n => if n < 2 ^ 2 ^ b then b else bitsNeeded fuel (b + 1) n

/-- The binary logarithm of `n < 2 ^ 2 ^ b`, rounded down, by binary search on
its bits. -/
def log2Bits : Nat → Nat → Nat
  | 0, _ => 0
  | b + 1, n => if 2 ^ 2 ^ b ≤ n then 2 ^ b + log2Bits b (n / 2 ^ 2 ^ b) else log2Bits b n

/-- The position of the leading bit of `n`: `2 ^ ilog2 n <= n < 2 ^ (ilog2 n + 1)`
for positive `n`. -/
def ilog2 (n : Nat) : Nat :=
  log2Bits (bitsNeeded n 0 n) n

/-- For positive `n` and `d`, the integer `e` with `2 ^ e <= n / d < 2 ^ (e + 1)`. -/
def floorLog2 (n d : Nat) : Int :=
  let e0 : Int := (ilog2 n : Int) - (ilog2 d : Int)
  if (if 0 ≤ e0 then d * 2 ^ e0.toNat ≤ n else d ≤ n * 2 ^ (-e0).toNat) then e0 else e0 - 1

/-- The integer nearest to `num / den`, a tie going to the even one. -/
def roundHalfEven (num den : Nat) : Nat :=
  let f := num / den
  let r := num % den
  if 2 * r < den then f else if den < 2 * r then f + 1 else if f % 2 = 0 then f else f + 1

/-- The exponent of the unit in the last place of the binade of `n / d`:
53 significant bits, and no exponent below `-1022` (subnormal numbers). -/
def ulpExp (n d : Nat) : Int :=
  max (floorLog2 n d) (-1022) - 52

/-- The multiple of `2 ^ ulpExp n d` nearest to `n / d`, a tie going to the even
multiple. -/
def roundMag (n d : Nat) : ℚ :=
  if 0 ≤ ulpExp n d then
    ((roundHalfEven n (d * 2 ^ (ulpExp n d).toNat) * 2 ^ (ulpExp n d).toNat : Nat) : ℚ)
  else
    (roundHalfEven (n * 2 ^ (-ulpExp n d).toNat) d : ℚ) / ((2 ^ (-ulpExp n d).toNat : Nat) : ℚ)

/-- Rounding of an exact (rational) result to binary64, to nearest, ties to
even: a magnitude that rounds to `2 ^ 1024` or more overflows to the infinity of
its sign, one that rounds to zero gives the zero of its sign; an exact zero is
`+0`. -/
def roundQ (q : ℚ) : Double :=
  if q = 0 then fin 0
  else if ((2 ^ 1024 : Nat) : ℚ) ≤ roundMag q.num.natAbs q.den then mkInf (decide (q < 0))
  else if roundMag q.num.natAbs q.den = 0 then mkZero (decide (q < 0))
  else fin (if q < 0 then -roundMag q.num.natAbs q.den else roundMag q.num.natAbs q.den)

/-- The test for a NaN. -/
def isNan : Double → Bool
  | nan => true
  | _ => false

/-- The test for an infinity. -/
def isInf : Double → Bool
  | posInf => true
  | negInf => true
  | _ => false

/-- The test for a zero of either sign. -/
def isZero : Double → Bool
  | fin q => decide (q = 0)
  | negZero => true
  | _ => false

/-- The sign bit (`false` for a NaN). -/
def signBit : Double → Bool
  | fin q => decide (q < 0)
  | negZero => true
  | negInf => true
  | _ => false

/-- The numerical value of a finite double (`0` for the others). -/
def toRat : Double → ℚ
  | fin q => q
  | _ => 0

/-- Unary minus. -/
def neg : Double → Double
  | fin q => if q = 0 then negZero else fin (-q)
  | negZero => fin 0
  | posInf => negInf
  | negInf => posInf
  | nan => nan

/-- Absolute value, `std::abs`. -/
def abs : Double → Double
  | fin q => fin |q|
  | negZero => fin 0
  | posInf => posInf
  | negInf => posInf
  | nan => nan

/-- Addition, `a + b`. -/
def add (a b : Double) : Double :=
  if a.isNan || b.isNan then nan
  else if a.isInf && b.isInf then (if a.signBit = b.signBit then a else nan)
  else if a.isInf then a
  else if b.isInf then b
  else if a.isZero && b.isZero then mkZero (a.signBit && b.signBit)
  else roundQ (a.toRat + b.toRat)

/-- Subtraction, `a - b`. -/
def sub (a b : Double) : Double :=
  add a (neg b)

/-- Multiplication, `a * b`. -/
def mul (a b : Double) : Double :=
  if a.isNan || b.isNan then nan
  else if (a.isInf && b.isZero) || (a.isZero && b.isInf) then nan
  else if a.isInf || b.isInf then mkInf (xor a.signBit b.signBit)
  else if a.isZero || b.isZero then mkZero (xor a.signBit b.signBit)
  else roundQ (a.toRat * b.toRat)

/-- Division, `a / b`. -/
def div (a b : Double) : Double :=
  if a.isNan || b.isNan then nan
  else if (a.isInf && b.isInf) || (a.isZero && b.isZero) then nan
  else if a.isInf || b.isZero then mkInf (xor a.signBit b.signBit)
  else if a.isZero || b.isInf then mkZero (xor a.signBit b.signBit)
  else roundQ (a.toRat / b.toRat)

/-- The comparison `a < b`: `false` when an operand is a NaN. -/
def lt (a b : Double) : Bool :=
  if a.isNan || b.isNan then false
  else if a = posInf || b = negInf then false
  else if a = negInf || b = posInf then true
  else decide (a.toRat < b.toRat)

/-- The comparison `a == b`: `false` when an operand is a NaN, `true` for
`+0 == -0`; `a != b` is its negation. -/
def beq (a b : Double) : Bool :=
  if a.isNan || b.isNan then false
  else if a.isInf || b.isInf then decide (a = b)
  else decide (a.toRat = b.toRat)

/-- The conversion of an unsigned integer to `double`. -/
def ofNat (n : Nat) : Double :=
  roundQ (n : ℚ)

/-- The conversion of an `int` to `double`. -/
def ofInt (n : Int) : Double :=
  roundQ (n : ℚ)

end Double

open Double

/-- The type `vecmath::Vec2` over doubles. -/
structure Vec2 where
  x : Double
  y : Double
deriving DecidableEq, Repr

/-- The type `vecmath::Line2` over doubles. -/
structure Line2 where
  k : Double
  b : Double
deriving DecidableEq, Repr

/-- The two library functions `std::atan` and `std::cos` on doubles. -/
structure Libm where
  atan : Double → Double
  cos : Double → Double

abbrev Points := List Vec2
abbrev ChamberDistances := Fin 4 → List Double
abbrev TrackDistances := Fin 4 → Double

/-- The type `WireParameters`: time-zero offset (`uint32_t`) and drift speed. -/
structure WireParameters where
  offset : Nat
  speed : Double

/-- The parameters `ChamberDescription::getParameters()` over doubles. -/
abbrev ChamberParameters := Fin 4 → WireParameters

/-- The type `TrackDescription` over doubles. -/
structure TrackDescription where
  line : Line2
  points : Points
  deviation : Double
  times : TrackTimes
deriving DecidableEq

/-- A default-constructed `TrackDescription`: no points; the line, the deviation
and the times are indeterminate in C++ and are never read before being
assigned. -/
def TrackDescription.empty : TrackDescription :=
  ⟨⟨fin 0, fin 0⟩, [], fin 0, fun _ => 0⟩

/-- The assignment `track.times = times`. -/
def withTimes (track : TrackDescription) (times : TrackTimes) : TrackDescription :=
  { track with times := times }

/-- The function-static `tempPoints` and `tempLine` of the sign resolver. -/
structure Scratch where
  tempPoints : Points
  tempLine : Line2
deriving DecidableEq

/-- The table `ChamberHandler::mWires`; all eight constants are doubles. -/
def mWires : Fin 4 → Vec2 :=
  ![⟨fin 41, fin (3 / 4)⟩, ⟨fin 51, fin (-3 / 4)⟩, ⟨fin 61, fin (3 / 4)⟩, ⟨fin 71, fin (-3 / 4)⟩]

/-- The scratch state at program start: `tempPoints{mWires[0..3]}`. -/
def Scratch.init : Scratch :=
  ⟨[mWires 0, mWires 1, mWires 2, mWires 3], ⟨fin 0, fin 0⟩⟩

/-- The function `template <typename T> int sign(T val)` at `T = double`:
`(T(0) < val) - (val < T(0))`, which is `0` for a zero and for a NaN. -/
def sign (val : Double) : Int :=
  (if (fin 0).lt val then 1 else 0) - (if val.lt (fin 0) then 1 else 0)

/-- The four running sums of `leastSquares`, in loop order. -/
structure Sums where
  sumX : Double
  sumY : Double
  sumXY : Double
  sumXX : Double

/-- One iteration of the summation loop: `sumX += x; sumY += y; sumXY += x * y;
sumXX += x * x`. -/
def sumsStep (s : Sums) (p : Vec2) : Sums :=
  ⟨s.sumX.add p.x, s.sumY.add p.y, s.sumXY.add (p.x.mul p.y), s.sumXX.add (p.x.mul p.x)⟩

/-- The summation loop of `leastSquares`. -/
def sums (points : Points) : Sums :=
  points.foldl sumsStep ⟨fin 0, fin 0, fin 0, fin 0⟩

/-- One iteration of the residual loop,
`dev += std::pow((line.k() * p.x() + line.b()) - p.y(), 2)`; the square is the
correctly rounded product. -/
def devStep (line : Line2) (dev : Double) (p : Vec2) : Double :=
  dev.add ((((line.k.mul p.x).add line.b).sub p.y).mul (((line.k.mul p.x).add line.b).sub p.y))

/-- The residual loop of `leastSquares`. -/
def devLoop (line : Line2) (points : Points) : Double :=
  points.foldl (devStep line) (fin 0)

/-- The function `ChamberHandler::leastSquares(points, line)`: the returned double
and the value of the reference parameter `line` afterwards. The condition
`exp && std::abs(exp) > 1e-60` is `exp != 0 && 1e-60 < std::abs(exp)`. -/
def leastSquares (points : Points) (line : Line2) : Double × Line2 :=
  if points.length < 2 then (fin (-1), line)
  else
    let s := sums points
    let n := Double.ofNat points.length
    let exp := (n.mul s.sumXX).sub (s.sumX.mul s.sumX)
    if (!exp.beq (fin 0)) && (roundQ (1 / 10 ^ 60)).lt exp.abs then
      let k := ((n.mul s.sumXY).sub (s.sumX.mul s.sumY)).div exp
      let b := (s.sumY.sub (k.mul s.sumX)).div n
      let line' : Line2 := ⟨k, b⟩
      (devLoop line' points, line')
    else (fin (-1), line)

/-- The write `points[i].y() = y` on a vector of points. -/
def setY : Points → Nat → Double → Points
  | [], _, _ => []
  | p :: ps, 0, y => ⟨p.x, y⟩ :: ps
  | p :: ps, i + 1, y => p :: setY ps i y

/-- The read `points[i].y()`. -/
def getY (points : Points) (i : Nat) : Double :=
  (points.getD i ⟨fin 0, fin 0⟩).y

/-- The inner loop of the sign resolver for permutation `i`: for each wire `j`,
`tempPoints[j].y() = (i & (1 << j)) ? -distances[j] : distances[j]` followed by
`tempPoints[j].y() += mWires[j].y()`. -/
def writeSigns (distances : TrackDistances) (i : Nat) (tempPoints : Points) : Points :=
  wireIdx.foldl
    (fun pts (j : Fin 4) =>
      setY pts j
        ((if i &&& (1 <<< j.val) ≠ 0 then (distances j).neg else distances j).add (mWires j).y))
    tempPoints

/-- One iteration of the outer loop of the sign resolver, with the test
`tempDev != -1 && tempDev < trackDesc.deviation` on the computed doubles. -/
def signStep (distances : TrackDistances) (st : TrackDescription × Scratch) (i : Nat) :
    TrackDescription × Scratch :=
  let tempPoints := writeSigns distances i st.2.tempPoints
  let fit := leastSquares tempPoints st.2.tempLine
  let tempDev := fit.1
  let tempLine := fit.2
  if (!tempDev.beq (fin (-1))) && tempDev.lt st.1.deviation then
    ({ st.1 with deviation := tempDev, line := tempLine, points := tempPoints },
      ⟨tempPoints, tempLine⟩)
  else (st.1, ⟨tempPoints, tempLine⟩)

/-- The sign resolver `ChamberHandler::createTrackDescription(const
TrackDistances&)`, with the static scratch state before and after the call. -/
def createTrackDescriptionOfDistances (s : Scratch) (distances : TrackDistances) :
    TrackDescription × Scratch :=
  let numPermutations := 2 ^ 4
  (List.range numPermutations).foldl (signStep distances)
    ({ TrackDescription.empty with deviation := posInf }, s)

/-- The function `ChamberHandler::getSystemError(r, ang)`:
`r * (1 / std::cos(ang) - 1)`. -/
def getSystemError (m : Libm) (r ang : Double) : Double :=
  r.mul (((fin 1).div (m.cos ang)).sub (fin 1))

/-- One iteration of the loop of `systemError`; `none` is `return false`. The
constants `6.2` and `3.6` are the doubles nearest to them. -/
def systemErrorStep (m : Libm) (track : TrackDescription) (i : Nat) : Option TrackDescription :=
  let y := getY track.points i
  let trackSign := sign y
  let w := sign ((if h : i < 4 then mWires ⟨i, h⟩ else ⟨fin 0, fin 0⟩).y)
  if trackSign * w = 1 then
    let r := if (roundQ (31 / 5)).lt y.abs then roundQ (31 / 5) else y
    some { track with
      points := setY track.points i
        (y.add ((Double.ofInt trackSign).mul (getSystemError m r (m.atan track.line.k)))) }
  else if trackSign * w = -1 then
    let r := if (roundQ (18 / 5)).lt y.abs then roundQ (18 / 5) else y
    some { track with
      points := setY track.points i
        (y.add ((Double.ofInt trackSign).mul (getSystemError m r (m.atan track.line.k)))) }
  else none

/-- The function `ChamberHandler::systemError(track)`: `none` when it returns
`false`, otherwise the track as it has been modified in place. -/
def systemError (m : Libm) (track : TrackDescription) : Option TrackDescription :=
  ((List.range track.points.length).foldlM (systemErrorStep m) track).map fun t =>
    let fit := leastSquares t.points t.line
    { t with deviation := fit.1, line := fit.2 }

/-- The inner loop of `getDistances` for one wire: the `uint32_t` difference is
converted to `double` and multiplied by the speed. -/
def wireDistances (params : WireParameters) (times : List Nat) : List Double :=
  times.foldl
    (fun distances msr =>
      if msr > params.offset then
        distances ++ [(Double.ofNat (u32sub msr params.offset)).mul params.speed]
      else distances)
    []

/-- The function `ChamberHandler::getDistances`. -/
def getDistances (eventTimes : ChamberTimes) (chamDesc : ChamberParameters) : ChamberDistances :=
  fun wire => wireDistances (chamDesc wire) (eventTimes wire)

/-- The function `ChamberHandler::getDepth`. -/
def getDepth (eventDistances : ChamberDistances) : Nat :=
  wireIdx.foldl
    (fun depth (w : Fin 4) =>
      if (eventDistances w).length < depth then (eventDistances w).length else depth)
    sizeMax

/-- The function `ChamberHandler::createTrackDistances`. -/
def createTrackDistances (eventDistances : ChamberDistances) (indices : Indecies) :
    Option TrackDistances := do
  let d0 ← atMod (eventDistances 0) (indices 0)
  let d1 ← atMod (eventDistances 1) (indices 1)
  let d2 ← atMod (eventDistances 2) (indices 2)
  let d3 ← atMod (eventDistances 3) (indices 3)
  pure ![d0, d1, d2, d3]

/-- The `if` statement of the innermost loop body, with the test
`tempTrackDesc.deviation != -1 && tempTrackDesc.deviation < trackDesc.deviation`
on the computed doubles. -/
def keepBest (eventTimes : ChamberTimes) (ind : Indecies) (trackDesc : TrackDescription)
    (r : TrackDescription × Scratch) : Option (TrackDescription × Scratch) :=
  let tempTrackDesc := r.1
  if (!tempTrackDesc.deviation.beq (fin (-1))) && tempTrackDesc.deviation.lt trackDesc.deviation
  then do
    let times ← createTrackTimes eventTimes ind
    pure (withTimes tempTrackDesc times, r.2)
  else pure (trackDesc, r.2)

/-- The body of the innermost loop of `createTrackDescription(eventTimes,
chamDesc)`. -/
def searchBody (eventTimes : ChamberTimes) (eventDistances : ChamberDistances)
    (st : TrackDescription × Scratch) (ind : Indecies) : Option (TrackDescription × Scratch) := do
  let distances ← createTrackDistances eventDistances ind
  keepBest eventTimes ind st.1 (createTrackDescriptionOfDistances st.2 distances)

/-- The four nested loops over the per-wire candidate indices. -/
def search (eventTimes : ChamberTimes) (eventDistances : ChamberDistances)
    (st : TrackDescription × Scratch) : Option (TrackDescription × Scratch) :=
  (List.range (eventDistances 0).length).foldlM (fun st i0 =>
    (List.range (eventDistances 1).length).foldlM (fun st i1 =>
      (List.range (eventDistances 2).length).foldlM (fun st i2 =>
        (List.range (eventDistances 3).length).foldlM (fun st i3 =>
          searchBody eventTimes eventDistances st ![i0, i1, i2, i3]) st) st) st) st

/-- The reconstruction `ChamberHandler::createTrackDescription(eventTimes,
chamDesc)`: `none` when it throws, otherwise the returned track. The test
`trackDesc.deviation != infinity` is taken on the computed double. -/
def createTrackDescription (m : Libm) (s : Scratch) (eventTimes : ChamberTimes)
    (chamDesc : ChamberParameters) : Option TrackDescription :=
  let eventDistances := getDistances eventTimes chamDesc
  let depth := getDepth eventDistances
  if depth = 1 then
    match search eventTimes eventDistances
        ({ TrackDescription.empty with deviation := posInf }, s) with
    | none => none
    | some (trackDesc, _) =>
      if !trackDesc.deviation.beq posInf then systemError m trackDesc else none
  else none

/-! ### Specification-side notions over doubles -/

/-- The point set of sign variant `v` of a four-distance combination:
`x_i = wire[i].position`, `y_i = (bit i of v ? -d_i : +d_i) + wire[i].offset`,
the sum rounded as the code computes it. -/
def variantPoints (d : TrackDistances) (v : Nat) : Points :=
  wireIdx.map fun i =>
    ⟨(mWires i).x, (if v.testBit i then (d i).neg else d i).add (mWires i).y⟩

/-- The line `leastSquares` stores on its fitting branch, as the code computes
it. -/
def fitLine (points : Points) : Line2 :=
  let s := sums points
  let n := Double.ofNat points.length
  let exp := (n.mul s.sumXX).sub (s.sumX.mul s.sumX)
  let k := ((n.mul s.sumXY).sub (s.sumX.mul s.sumY)).div exp
  ⟨k, (s.sumY.sub (k.mul s.sumX)).div n⟩

/-- The scratch point buffer holds four points at the wire positions. -/
def ScratchOk (s : Scratch) : Prop :=
  s.tempPoints.map (fun p => p.x) = wireIdx.map fun i => (mWires i).x

instance (s : Scratch) : Decidable (ScratchOk s) := by
  unfold ScratchOk; infer_instance

/-- The distances an index combination selects, one per wire. -/
def distancesAt (eventDistances : ChamberDistances) (ind : Indecies) : TrackDistances :=
  fun w => (eventDistances w).getD (ind w) (fin 0)

/-- The candidate of an index combination before the systematic correction:
the result of the sign resolver on its distances (run on the freshly
initialised scratch state) together with the times stored for it. -/
def candidate (eventTimes : ChamberTimes) (eventDistances : ChamberDistances) (ind : Indecies) :
    TrackDescription :=
  withTimes (createTrackDescriptionOfDistances Scratch.init (distancesAt eventDistances ind)).1
    (timesAt eventTimes ind)

/-- An instance of `std::atan` and `std::cos` for the worked examples: the angle
`atan k` is represented by its tangent `k`, and `cos` sends that representative
to the double nearest to `cos (atan k) = 1 / sqrt (1 + k ^ 2)` at the slopes
`0` (`1`) and `3 / 4` (the double nearest to `4 / 5`). -/
def exampleLibm : Libm :=
  ⟨fun k => k, fun a => if a = fin (3 / 4) then roundQ (4 / 5) else fin 1⟩

/-- Calibration with offset `0` and speed `0.25` on every wire. -/
def quarterSpeed : ChamberParameters := fun _ => ⟨0, fin (1 / 4)⟩

/-- Four distances of `2 ^ 1023` each: every sum of two of them overflows. -/
def hugeDistances : TrackDistances := fun _ => fin (2 ^ 1023)

/-- The distances `2 ^ 1023, 1, 1, 1`: the products with the wire positions
overflow. -/
def overflowDistances : TrackDistances := ![fin (2 ^ 1023), fin 1, fin 1, fin 1]

/-- Four distances of `1` each. -/
def unitDistances : TrackDistances := fun _ => fin 1

/-- Raw times of an event with two hits on wire 0 and one on the others; with
speed `0.25` and offset `0` the distances are `(0.75 | 10.5), 4.5, 6.75, 12`. -/
def timesOnCenterline : ChamberTimes := ![[3, 42], [18], [27], [48]]

/-- A candidate of slope `0.75` through the points
`(41, -11.25), (51, -3.75), (61, 3.75), (71, 11.25)`. -/
def steepTrack : TrackDescription :=
  ⟨⟨fin (3 / 4), fin (-42)⟩,
    [⟨fin 41, fin (-45 / 4)⟩, ⟨fin 51, fin (-15 / 4)⟩, ⟨fin 61, fin (15 / 4)⟩,
      ⟨fin 71, fin (45 / 4)⟩],
    fin 0, fun _ => 0⟩

end ieee

/-! ## Line fitter: algebra of the sums -/

theorem foldl_sumsStep (points : Points) (acc : Sums) :
    points.foldl sumsStep acc =
      ⟨acc.sumX + (points.map fun p => p.x).sum, acc.sumY + (points.map fun p => p.y).sum,
        acc.sumXY + (points.map fun p => p.x * p.y).sum,
        acc.sumXX + (points.map fun p => p.x * p.x).sum⟩ := by
  induction points generalizing acc with
  | nil => simp
  | cons p ps ih => simp [List.foldl_cons, ih, sumsStep, add_assoc]

theorem sums_sumX (points : Points) : (sums points).sumX = (points.map fun p => p.x).sum := by
  simp [sums, foldl_sumsStep]

theorem sums_sumXX (points : Points) :
    (sums points).sumXX = (points.map fun p => p.x * p.x).sum := by
  simp [sums, foldl_sumsStep]

theorem foldl_dev (line : Line2) (points : Points) (acc : ℚ) :
    points.foldl (fun dev p => dev + ((line.k * p.x + line.b) - p.y) ^ 2) acc =
      acc + ssr line points := by
  induction points generalizing acc with
  | nil => simp [ssr]
  | cons p ps ih =>
    simp only [List.foldl_cons, ih, ssr, List.map_cons, List.sum_cons]
    ring

theorem devLoop_eq_ssr (line : Line2) (points : Points) : devLoop line points = ssr line points := by
  simp [devLoop, foldl_dev]

theorem ssr_nonneg (line : Line2) (points : Points) : 0 ≤ ssr line points := by
  unfold ssr
  apply List.sum_nonneg
  intro q hq
  obtain ⟨p, _, rfl⟩ := List.mem_map.mp hq
  positivity

/-- The outcome of `leastSquares` when the point set is fittable. -/
theorem leastSquares_fit (points : Points) (line : Line2) (hlen : 2 ≤ points.length)
    (hexp : (points.length : ℚ) * (sums points).sumXX - (sums points).sumX * (sums points).sumX ≠ 0)
    (hbig : |(points.length : ℚ) * (sums points).sumXX - (sums points).sumX * (sums points).sumX|
      > 1 / 10 ^ 60) :
    leastSquares points line =
      (ssr ⟨((points.length : ℚ) * (sums points).sumXY - (sums points).sumX * (sums points).sumY) /
              ((points.length : ℚ) * (sums points).sumXX - (sums points).sumX * (sums points).sumX),
            ((sums points).sumY -
              ((points.length : ℚ) * (sums points).sumXY - (sums points).sumX * (sums points).sumY) /
                ((points.length : ℚ) * (sums points).sumXX - (sums points).sumX * (sums points).sumX)
                * (sums points).sumX) / (points.length : ℚ)⟩ points,
        ⟨((points.length : ℚ) * (sums points).sumXY - (sums points).sumX * (sums points).sumY) /
              ((points.length : ℚ) * (sums points).sumXX - (sums points).sumX * (sums points).sumX),
            ((sums points).sumY -
              ((points.length : ℚ) * (sums points).sumXY - (sums points).sumX * (sums points).sumY) /
                ((points.length : ℚ) * (sums points).sumXX - (sums points).sumX * (sums points).sumX)
                * (sums points).sumX) / (points.length : ℚ)⟩) := by
  unfold leastSquares
  rw [if_neg (by omega)]
  simp only []
  rw [if_pos ⟨hexp, hbig⟩, devLoop_eq_ssr]

/-- The outcome of `leastSquares` when the point set is not fittable. -/
theorem leastSquares_unfit (points : Points) (line : Line2)
    (h : points.length < 2 ∨
      ¬ ((points.length : ℚ) * (sums points).sumXX - (sums points).sumX * (sums points).sumX ≠ 0 ∧
        |(points.length : ℚ) * (sums points).sumXX - (sums points).sumX * (sums points).sumX|
          > 1 / 10 ^ 60)) :
    leastSquares points line = (-1, line) := by
  unfold leastSquares
  by_cases hl : points.length < 2
  · rw [if_pos hl]
  · rw [if_neg hl]
    simp only []
    rcases h with h | h
    · exact absurd h hl
    · rw [if_neg h]

theorem length_eq_four {α : Type} (l : List α) (h : l.length = 4) :
    ∃ a b c d, l = [a, b, c, d] := by
  match l, h with
  | [a, b, c, d], _ => exact ⟨a, b, c, d, rfl⟩

/-! ## Projections of a track description -/

theorem line_mk (l : Line2) (p : Points) (d : Deviation) (t : TrackTimes) :
    (TrackDescription.mk l p d t).line = l := rfl

theorem points_mk (l : Line2) (p : Points) (d : Deviation) (t : TrackTimes) :
    (TrackDescription.mk l p d t).points = p := rfl

theorem deviation_mk (l : Line2) (p : Points) (d : Deviation) (t : TrackTimes) :
    (TrackDescription.mk l p d t).deviation = d := rfl

theorem times_mk (l : Line2) (p : Points) (d : Deviation) (t : TrackTimes) :
    (TrackDescription.mk l p d t).times = t := rfl

/-! ## Order on deviations -/

theorem Deviation.fin_lt_fin (a b : ℚ) : (Deviation.fin a < Deviation.fin b) ↔ a < b := Iff.rfl

theorem Deviation.fin_lt_inf (a : ℚ) : Deviation.fin a < Deviation.inf := trivial

theorem Deviation.not_inf_lt (d : Deviation) : ¬ Deviation.inf < d := fun h => h

theorem Deviation.fin_lt_of_lt {a b : ℚ} {d : Deviation} (h : Deviation.fin a < d) (hb : b < a) :
    Deviation.fin b < d := by
  cases d with
  | fin q => exact lt_trans hb h
  | inf => trivial

theorem Deviation.lt_of_not_fin_lt {a b : ℚ} {d : Deviation} (h : ¬ Deviation.fin a < d)
    (hb : Deviation.fin b < d) : b < a := by
  cases d with
  | fin q => exact lt_of_lt_of_le hb (not_lt.mp h)
  | inf => exact absurd trivial h

/-- A fold that replaces the running best by candidate `i` whenever the key of
`i` is strictly below the deviation of the running best ends either unchanged
(no candidate was below the start) or at the first candidate of minimal key. -/
theorem foldl_argmin {ι σ : Type} (dev : σ → Deviation) (key : ι → ℚ) (upd : σ → ι → σ)
    (hupd : ∀ st i, dev (upd st i) = .fin (key i)) (l : List ι) (st0 : σ) :
    (l.foldl (fun st i => if Deviation.fin (key i) < dev st then upd st i else st) st0 = st0 ∧
        ∀ j ∈ l, ¬ Deviation.fin (key j) < dev st0) ∨
      ∃ l1 i l2 st, l = l1 ++ i :: l2 ∧
        l.foldl (fun st i => if Deviation.fin (key i) < dev st then upd st i else st) st0
          = upd st i ∧
        Deviation.fin (key i) < dev st0 ∧ (∀ j ∈ l1, key i < key j) ∧ ∀ j ∈ l2, key i ≤ key j := by
  induction l generalizing st0 with
  | nil => left; simp
  | cons a l ih =>
    rw [List.foldl_cons]
    by_cases ha : Deviation.fin (key a) < dev st0
    · rw [if_pos ha]
      right
      rcases ih (upd st0 a) with ⟨heq, hall⟩ | ⟨l1, i, l2, st, hl, heq, hlt, h1, h2⟩
      · refine ⟨[], a, l, st0, rfl, heq, ha, by simp, fun j hj => ?_⟩
        have := hall j hj
        rw [hupd, Deviation.fin_lt_fin] at this
        exact not_lt.mp this
      · rw [hupd, Deviation.fin_lt_fin] at hlt
        refine ⟨a :: l1, i, l2, st, by rw [hl]; rfl, heq, Deviation.fin_lt_of_lt ha hlt, ?_, h2⟩
        intro j hj
        rcases List.mem_cons.mp hj with rfl | hj
        · exact hlt
        · exact h1 j hj
    · rw [if_neg ha]
      rcases ih st0 with ⟨heq, hall⟩ | ⟨l1, i, l2, st, hl, heq, hlt, h1, h2⟩
      · left
        refine ⟨heq, fun j hj => ?_⟩
        rcases List.mem_cons.mp hj with rfl | hj
        · exact ha
        · exact hall j hj
      · right
        refine ⟨a :: l1, i, l2, st, by rw [hl]; rfl, heq, hlt, ?_, h2⟩
        intro j hj
        rcases List.mem_cons.mp hj with rfl | hj
        · exact Deviation.lt_of_not_fin_lt ha hlt
        · exact h1 j hj

/-! ## Sign resolver: lemmas -/

theorem and_shiftLeft_ne_zero (v j : Nat) : v &&& (1 <<< j) ≠ 0 ↔ v.testBit j = true := by
  rw [Nat.one_shiftLeft]
  constructor
  · intro h
    by_contra hb
    apply h
    apply Nat.eq_of_testBit_eq
    intro k
    rw [Nat.testBit_and, Nat.testBit_two_pow, Nat.zero_testBit]
    by_cases hjk : j = k
    · subst hjk; simp [hb]
    · simp [hjk]
  · intro hb h
    have : (v &&& 2 ^ j).testBit j = true := by
      rw [Nat.testBit_and, Nat.testBit_two_pow, hb]; simp
    rw [h, Nat.zero_testBit] at this
    exact Bool.noConfusion this

theorem scratchOk_init : ScratchOk Scratch.init := by
  simp [ScratchOk, Scratch.init, wireIdx]

/-- On a buffer at the wire positions the inner loop writes variant `i`. -/
theorem writeSigns_eq (d : TrackDistances) (i : Nat) (pts : Points)
    (h : pts.map (fun p => p.x) = wireIdx.map fun i => (mWires i).x) :
    writeSigns d i pts = variantPoints d i := by
  obtain ⟨p0, p1, p2, p3, rfl⟩ := length_eq_four pts (by
    have := congrArg List.length h
    simpa [wireIdx] using this)
  simp only [wireIdx, List.map_cons, List.map_nil, List.cons.injEq, and_true] at h
  obtain ⟨h0, h1, h2, h3⟩ := h
  simp only [writeSigns, variantPoints, wireIdx, List.foldl_cons, List.foldl_nil, List.map_cons,
    List.map_nil, setY, and_shiftLeft_ne_zero, Fin.val_zero, Fin.val_one, h0, h1, h2, h3]
  simp [setY, h0, h1, h2, h3, add_comm]

theorem variantPoints_x (d : TrackDistances) (v : Nat) :
    (variantPoints d v).map (fun p => p.x) = wireIdx.map fun i => (mWires i).x := by
  simp [variantPoints, List.map_map, Function.comp_def]

/-- At the four wire positions the denominator of the fit is `2000`. -/
theorem exp_onWires (pts : Points)
    (h : pts.map (fun p => p.x) = wireIdx.map fun i => (mWires i).x) :
    (pts.length : ℚ) * (sums pts).sumXX - (sums pts).sumX * (sums pts).sumX = 2000 := by
  have hs : (sums pts).sumX = 224 ∧ (sums pts).sumXX = 13044 := by
    rw [sums_sumX, sums_sumXX]
    have h2 : pts.map (fun p => p.x * p.x) = (pts.map fun p => p.x).map fun x => x * x := by
      simp [List.map_map, Function.comp_def]
    rw [h2, h]
    simp [wireIdx, mWires]
    norm_num
  have hl : pts.length = 4 := by
    have := congrArg List.length h
    simpa [wireIdx] using this
  rw [hs.1, hs.2, hl]
  norm_num

/-- At the four wire positions `leastSquares` always fits: it returns the
residual sum of the line it stores, never the sentinel, whatever `line` held. -/
theorem leastSquares_onWires (pts : Points) (line : Line2)
    (h : pts.map (fun p => p.x) = wireIdx.map fun i => (mWires i).x) :
    (leastSquares pts line).1 = ssr (leastSquares pts line).2 pts ∧
      (leastSquares pts line).1 ≠ -1 ∧ ∀ line', leastSquares pts line' = leastSquares pts line := by
  have hexp := exp_onWires pts h
  have hl : 2 ≤ pts.length := by
    have := congrArg List.length h
    simp [wireIdx] at this
    omega
  have hne : (pts.length : ℚ) * (sums pts).sumXX - (sums pts).sumX * (sums pts).sumX ≠ 0 := by
    rw [hexp]; norm_num
  have hbig : |(pts.length : ℚ) * (sums pts).sumXX - (sums pts).sumX * (sums pts).sumX|
      > 1 / 10 ^ 60 := by
    rw [hexp]; norm_num
  refine ⟨?_, ?_, fun line' => ?_⟩
  · rw [leastSquares_fit pts line hl hne hbig]
  · rw [leastSquares_fit pts line hl hne hbig]
    simp only []
    have := ssr_nonneg ⟨((pts.length : ℚ) * (sums pts).sumXY - (sums pts).sumX * (sums pts).sumY) /
              ((pts.length : ℚ) * (sums pts).sumXX - (sums pts).sumX * (sums pts).sumX),
            ((sums pts).sumY -
              ((pts.length : ℚ) * (sums pts).sumXY - (sums pts).sumX * (sums pts).sumY) /
                ((pts.length : ℚ) * (sums pts).sumXX - (sums pts).sumX * (sums pts).sumX)
                * (sums pts).sumX) / (pts.length : ℚ)⟩ pts
    linarith
  · rw [leastSquares_fit pts line hl hne hbig, leastSquares_fit pts line' hl hne hbig]

/-- One iteration of the sign resolver on a scratch buffer at the wire
positions: the scratch contents do not influence the outcome. -/
theorem signStep_eq (d : TrackDistances) (best : TrackDescription) (s : Scratch) (i : Nat)
    (l0 : Line2) (hs : ScratchOk s) :
    signStep d (best, s) i =
      (if Deviation.fin (leastSquares (variantPoints d i) l0).1 < best.deviation then
          { best with
            deviation := .fin (leastSquares (variantPoints d i) l0).1
            line := (leastSquares (variantPoints d i) l0).2
            points := variantPoints d i }
        else best,
        ⟨variantPoints d i, (leastSquares (variantPoints d i) l0).2⟩) := by
  obtain ⟨_, hne, hind⟩ := leastSquares_onWires (variantPoints d i) l0 (variantPoints_x d i)
  unfold signStep
  simp only [writeSigns_eq d i s.tempPoints hs, hind s.tempLine, ne_eq, hne, not_false_eq_true,
    true_and]
  split_ifs <;> rfl

/-- The sign resolver as a fold that does not mention the scratch state. -/
theorem foldl_signStep (d : TrackDistances) (l0 : Line2) (l : List Nat) (best : TrackDescription)
    (s : Scratch) (hs : ScratchOk s) :
    (l.foldl (signStep d) (best, s)).1 =
        l.foldl (fun st i =>
          if Deviation.fin (leastSquares (variantPoints d i) l0).1 < st.deviation then
            { st with
              deviation := .fin (leastSquares (variantPoints d i) l0).1
              line := (leastSquares (variantPoints d i) l0).2
              points := variantPoints d i }
          else st) best ∧
      ScratchOk (l.foldl (signStep d) (best, s)).2 := by
  induction l generalizing best s with
  | nil => exact ⟨rfl, hs⟩
  | cons a l ih =>
    rw [List.foldl_cons, List.foldl_cons, signStep_eq d best s a l0 hs]
    exact ih _ _ (variantPoints_x d a)

theorem range_split_lt (n : Nat) (l1 l2 : List Nat) (i : Nat) (h : List.range n = l1 ++ i :: l2) :
    i < n ∧ ∀ j, j < i → j ∈ l1 := by
  have hi : i ∈ List.range n := by rw [h]; simp
  refine ⟨List.mem_range.mp hi, fun j hj => ?_⟩
  have hjm : j ∈ List.range n := List.mem_range.mpr (lt_trans hj (List.mem_range.mp hi))
  rw [h] at hjm
  rcases List.mem_append.mp hjm with h1 | h1
  · exact h1
  · exfalso
    rcases List.mem_cons.mp h1 with h2 | h2
    · omega
    · have hp : List.Pairwise (· < ·) (l1 ++ i :: l2) := h ▸ List.pairwise_lt_range n
      have := (List.pairwise_cons.mp (List.pairwise_append.mp hp).2.1).1 j h2
      omega

/-- The sign resolver, on a scratch buffer at the wire positions, returns the
first sign variant of minimal deviation; the times are left untouched. -/
theorem signResolver_spec (s : Scratch) (hs : ScratchOk s) (d : TrackDistances) (l0 : Line2) :
    ScratchOk (createTrackDescriptionOfDistances s d).2 ∧
    ∃ v, v < 16 ∧
      (createTrackDescriptionOfDistances s d).1 =
        ⟨(leastSquares (variantPoints d v) l0).2, variantPoints d v,
          .fin (leastSquares (variantPoints d v) l0).1, TrackDescription.empty.times⟩ ∧
      (∀ v', v' < 16 →
        (leastSquares (variantPoints d v) l0).1 ≤ (leastSquares (variantPoints d v') l0).1) ∧
      ∀ v', v' < v →
        (leastSquares (variantPoints d v) l0).1 < (leastSquares (variantPoints d v') l0).1 := by
  unfold createTrackDescriptionOfDistances
  obtain ⟨hfold, hok⟩ := foldl_signStep d l0 (List.range (2 ^ 4))
    { TrackDescription.empty with deviation := .inf } s hs
  refine ⟨hok, ?_⟩
  simp only []
  rw [hfold]
  have htimes : ∀ (l : List Nat) (st : TrackDescription),
      (l.foldl (fun st i =>
          if Deviation.fin (leastSquares (variantPoints d i) l0).1 < st.deviation then
            { st with
              deviation := .fin (leastSquares (variantPoints d i) l0).1
              line := (leastSquares (variantPoints d i) l0).2
              points := variantPoints d i }
          else st) st).times = st.times := by
    intro l
    induction l with
    | nil => intro st; rfl
    | cons a l ih =>
      intro st
      rw [List.foldl_cons, ih]
      split_ifs <;> rfl
  rcases foldl_argmin (fun st : TrackDescription => st.deviation)
      (fun i => (leastSquares (variantPoints d i) l0).1)
      (fun st i => { st with
              deviation := .fin (leastSquares (variantPoints d i) l0).1
              line := (leastSquares (variantPoints d i) l0).2
              points := variantPoints d i })
      (fun _ _ => rfl) (List.range (2 ^ 4)) { TrackDescription.empty with deviation := .inf }
    with ⟨_, hall⟩ | ⟨l1, v, l2, st, hl, heq, _, h1, h2⟩
  · exact absurd (Deviation.fin_lt_inf _) (hall 0 (by simp))
  · obtain ⟨hv, hbefore⟩ := range_split_lt _ l1 l2 v hl
    refine ⟨v, hv, ?_, ?_, ?_⟩
    · have ht := htimes (List.range (2 ^ 4)) { TrackDescription.empty with deviation := .inf }
      rw [heq] at ht ⊢
      simp only [] at ht ⊢
      rw [ht]
    · intro v' hv'
      have hm : v' ∈ List.range (2 ^ 4) := List.mem_range.mpr hv'
      rw [hl] at hm
      rcases List.mem_append.mp hm with hm | hm
      · exact le_of_lt (h1 v' hm)
      · rcases List.mem_cons.mp hm with rfl | hm
        · exact le_refl _
        · exact h2 v' hm
    · intro v' hv'
      exact h1 v' (hbefore v' hv')

/-! ## Distance converter and hit selector: lemmas -/

theorem foldl_wireDistances (params : WireParameters) (times : List Nat) (acc : List ℚ) :
    times.foldl
        (fun distances msr =>
          if msr > params.offset then
            distances ++ [((u32sub msr params.offset : Nat) : ℚ) * params.speed]
          else distances)
        acc =
      acc ++ (times.filter fun t => decide (t > params.offset)).map
        fun t => ((u32sub t params.offset : Nat) : ℚ) * params.speed := by
  induction times generalizing acc with
  | nil => simp
  | cons t ts ih =>
    rw [List.foldl_cons, ih]
    by_cases h : t > params.offset
    · simp [h, List.filter_cons]
    · simp [h, List.filter_cons]

theorem wireDistances_eq (params : WireParameters) (times : List Nat) :
    wireDistances params times =
      (times.filter fun t => decide (t > params.offset)).map
        fun t => ((u32sub t params.offset : Nat) : ℚ) * params.speed := by
  unfold wireDistances
  rw [foldl_wireDistances]
  simp

theorem getDistances_length_le (eventTimes : ChamberTimes) (chamDesc : ChamberParameters)
    (w : Fin 4) : (getDistances eventTimes chamDesc w).length ≤ (eventTimes w).length := by
  unfold getDistances
  rw [wireDistances_eq, List.length_map]
  exact List.length_filter_le _ _

theorem getDepth_eq (ed : ChamberDistances) :
    getDepth ed =
      min (min (min (min sizeMax (ed 0).length) (ed 1).length) (ed 2).length) (ed 3).length := by
  have hstep : ∀ a b : Nat, (if a < b then a else b) = min b a := by
    intro a b
    split_ifs with h
    · exact (min_eq_right (le_of_lt h)).symm
    · exact (min_eq_left (not_lt.mp h)).symm
  simp only [getDepth, wireIdx, List.foldl_cons, List.foldl_nil, hstep]

theorem getDepth_one (ed : ChamberDistances) (h : getDepth ed = 1) (w : Fin 4) :
    1 ≤ (ed w).length := by
  rw [getDepth_eq] at h
  have hs : 1 < sizeMax := by decide
  fin_cases w <;> simp only [Fin.zero_eta, Fin.mk_one, Fin.reduceFinMk] <;> omega

theorem atMod_eq {α : Type} (v : List α) (idx : Nat) (a : α) (h : idx < v.length) :
    atMod v idx = some (v.getD idx a) := by
  unfold atMod
  rw [if_neg (by omega), Nat.mod_eq_of_lt h, List.getD_eq_getElem?_getD, List.getElem?_eq_getElem h]
  rfl

theorem createTrackDistances_eq (ed : ChamberDistances) (ind : Indecies)
    (h : ∀ w, ind w < (ed w).length) : createTrackDistances ed ind = some (distancesAt ed ind) := by
  unfold createTrackDistances
  rw [atMod_eq _ _ 0 (h 0), atMod_eq _ _ 0 (h 1), atMod_eq _ _ 0 (h 2), atMod_eq _ _ 0 (h 3)]
  simp only [Option.bind_eq_bind, Option.some_bind, Option.pure_def, Option.some.injEq]
  funext w
  fin_cases w <;> rfl

theorem createTrackTimes_eq (times : ChamberTimes) (ind : Indecies)
    (h : ∀ w, ind w < (times w).length) : createTrackTimes times ind = some (timesAt times ind) := by
  unfold createTrackTimes
  rw [atMod_eq _ _ 0 (h 0), atMod_eq _ _ 0 (h 1), atMod_eq _ _ 0 (h 2), atMod_eq _ _ 0 (h 3)]
  simp only [Option.bind_eq_bind, Option.some_bind, Option.pure_def, Option.some.injEq]
  funext w
  fin_cases w <;> rfl

theorem mem_combinations (n : Fin 4 → Nat) (ind : Indecies) :
    ind ∈ combinations n ↔ ∀ w, ind w < n w := by
  simp only [combinations, List.mem_flatMap, List.mem_map, List.mem_range]
  constructor
  · rintro ⟨i0, h0, i1, h1, i2, h2, i3, h3, rfl⟩ w
    fin_cases w <;> simpa
  · intro h
    refine ⟨ind 0, h 0, ind 1, h 1, ind 2, h 2, ind 3, h 3, ?_⟩
    funext w
    fin_cases w <;> rfl

/-! ## Reconstruction orchestrator: lemmas -/

theorem foldlM_flatMap {α β σ : Type} (f : α → List β) (g : σ → β → Option σ) (l : List α)
    (st : σ) :
    (l.flatMap f).foldlM g st = l.foldlM (fun st a => (f a).foldlM g st) st := by
  induction l generalizing st with
  | nil => rfl
  | cons a l ih =>
    rw [List.flatMap_cons, List.foldlM_append, List.foldlM_cons]
    cases h : (f a).foldlM g st with
    | none => rfl
    | some st' => exact ih st'

theorem foldlM_map {α β σ : Type} (f : α → β) (g : σ → β → Option σ) (l : List α) (st : σ) :
    (l.map f).foldlM g st = l.foldlM (fun st a => g st (f a)) st := by
  induction l generalizing st with
  | nil => rfl
  | cons a l ih =>
    rw [List.map_cons, List.foldlM_cons, List.foldlM_cons]
    cases h : g st (f a) with
    | none => rfl
    | some st' => exact ih st'

/-- The four nested loops visit the index combinations in order. -/
theorem search_eq (eventTimes : ChamberTimes) (ed : ChamberDistances)
    (st : TrackDescription × Scratch) :
    search eventTimes ed st =
      (combinations fun w => (ed w).length).foldlM (searchBody eventTimes ed) st := by
  unfold search combinations
  rw [foldlM_flatMap]
  congr 1
  funext st i0
  rw [foldlM_flatMap]
  congr 1
  funext st i1
  rw [foldlM_flatMap]
  congr 1
  funext st i2
  rw [foldlM_map]

theorem withTimes_deviation (t : TrackDescription) (ts : TrackTimes) :
    (withTimes t ts).deviation = t.deviation := rfl

theorem withTimes_points (t : TrackDescription) (ts : TrackTimes) :
    (withTimes t ts).points = t.points := rfl

theorem withTimes_line (t : TrackDescription) (ts : TrackTimes) :
    (withTimes t ts).line = t.line := rfl

theorem withTimes_times (t : TrackDescription) (ts : TrackTimes) :
    (withTimes t ts).times = ts := rfl

/-- On a scratch buffer at the wire positions the sign resolver returns what it
returns on the initial scratch state, a track with a finite non-negative
deviation whose points are at the wire positions. -/
theorem signResolver_scratch (s : Scratch) (hs : ScratchOk s) (d : TrackDistances) :
    (createTrackDescriptionOfDistances s d).1 = (createTrackDescriptionOfDistances Scratch.init d).1 ∧
      ScratchOk (createTrackDescriptionOfDistances s d).2 := by
  have h1 := foldl_signStep d ⟨0, 0⟩ (List.range (2 ^ 4))
    { TrackDescription.empty with deviation := .inf } s hs
  have h2 := foldl_signStep d ⟨0, 0⟩ (List.range (2 ^ 4))
    { TrackDescription.empty with deviation := .inf } Scratch.init scratchOk_init
  exact ⟨h1.1.trans h2.1.symm, h1.2⟩

theorem signResolver_fields (s : Scratch) (hs : ScratchOk s) (d : TrackDistances) :
    (createTrackDescriptionOfDistances s d).1.deviation
        = .fin (leastSquares (createTrackDescriptionOfDistances s d).1.points ⟨0, 0⟩).1 ∧
      (leastSquares (createTrackDescriptionOfDistances s d).1.points ⟨0, 0⟩).1 ≠ -1 ∧
      (createTrackDescriptionOfDistances s d).1.line
        = (leastSquares (createTrackDescriptionOfDistances s d).1.points ⟨0, 0⟩).2 ∧
      (createTrackDescriptionOfDistances s d).1.points.map (fun p => p.x)
        = wireIdx.map fun i => (mWires i).x := by
  obtain ⟨_, v, _, heq, _, _⟩ := signResolver_spec s hs d ⟨0, 0⟩
  have hp : (createTrackDescriptionOfDistances s d).1.points = variantPoints d v :=
    (congrArg TrackDescription.points heq).trans (points_mk _ _ _ _)
  rw [hp]
  exact ⟨(congrArg TrackDescription.deviation heq).trans (deviation_mk _ _ _ _),
    (leastSquares_onWires (variantPoints d v) ⟨0, 0⟩ (variantPoints_x d v)).2.1,
    (congrArg TrackDescription.line heq).trans (line_mk _ _ _ _), variantPoints_x d v⟩

theorem candidate_def (eventTimes : ChamberTimes) (ed : ChamberDistances) (ind : Indecies) :
    candidate eventTimes ed ind =
      withTimes (createTrackDescriptionOfDistances Scratch.init (distancesAt ed ind)).1
        (timesAt eventTimes ind) := rfl

/-- The pre-correction deviation of a candidate, as a number. -/
theorem candidate_deviation (eventTimes : ChamberTimes) (ed : ChamberDistances) (ind : Indecies) :
    (candidate eventTimes ed ind).deviation =
      .fin (leastSquares (candidate eventTimes ed ind).points ⟨0, 0⟩).1 := by
  rw [candidate_def, withTimes_deviation, withTimes_points]
  exact (signResolver_fields Scratch.init scratchOk_init (distancesAt ed ind)).1

theorem keepBest_eq (eventTimes : ChamberTimes) (ind : Indecies) (best : TrackDescription)
    (r : TrackDescription × Scratch) (q : ℚ) (hq : r.1.deviation = .fin q) (hne : q ≠ -1)
    (ht : ∀ w, ind w < (eventTimes w).length) :
    keepBest eventTimes ind best r =
      some (if Deviation.fin q < best.deviation then withTimes r.1 (timesAt eventTimes ind)
        else best, r.2) := by
  unfold keepBest
  simp only [hq, createTrackTimes_eq eventTimes ind ht, Option.bind_eq_bind, Option.some_bind,
    Option.pure_def, ne_eq, Deviation.fin.injEq, hne, not_false_eq_true, true_and]
  split_ifs <;> rfl

/-- The loop body on an index combination within range. -/
theorem searchBody_eq (eventTimes : ChamberTimes) (ed : ChamberDistances)
    (best : TrackDescription) (s : Scratch) (hs : ScratchOk s) (ind : Indecies)
    (hd : ∀ w, ind w < (ed w).length) (ht : ∀ w, ind w < (eventTimes w).length) :
    ∃ s', ScratchOk s' ∧
      searchBody eventTimes ed (best, s) ind =
        some (if Deviation.fin (leastSquares (candidate eventTimes ed ind).points ⟨0, 0⟩).1
                < best.deviation
              then candidate eventTimes ed ind else best, s') := by
  obtain ⟨h1, h2⟩ := signResolver_scratch s hs (distancesAt ed ind)
  obtain ⟨h3, h4, _, _⟩ := signResolver_fields s hs (distancesAt ed ind)
  refine ⟨(createTrackDescriptionOfDistances s (distancesAt ed ind)).2, h2, ?_⟩
  unfold searchBody
  rw [createTrackDistances_eq ed ind hd]
  simp only [Option.bind_eq_bind, Option.some_bind]
  rw [keepBest_eq eventTimes ind best _ _ h3 h4 ht, candidate_def, withTimes_points, h1]

theorem foldlM_searchBody (eventTimes : ChamberTimes) (ed : ChamberDistances) (l : List Indecies)
    (hd : ∀ ind ∈ l, ∀ w, ind w < (ed w).length)
    (ht : ∀ ind ∈ l, ∀ w, ind w < (eventTimes w).length)
    (best : TrackDescription) (s : Scratch) (hs : ScratchOk s) :
    ∃ s', ScratchOk s' ∧
      l.foldlM (searchBody eventTimes ed) (best, s) =
        some (l.foldl (fun b ind =>
          if Deviation.fin (leastSquares (candidate eventTimes ed ind).points ⟨0, 0⟩).1
              < b.deviation
          then candidate eventTimes ed ind else b) best, s') := by
  induction l generalizing best s with
  | nil => exact ⟨s, hs, rfl⟩
  | cons a l ih =>
    obtain ⟨s1, hs1, h1⟩ := searchBody_eq eventTimes ed best s hs a
      (hd a (List.mem_cons_self _ _)) (ht a (List.mem_cons_self _ _))
    rw [List.foldlM_cons, h1, List.foldl_cons]
    exact ih (fun ind hi => hd ind (List.mem_cons_of_mem _ hi))
      (fun ind hi => ht ind (List.mem_cons_of_mem _ hi)) _ s1 hs1

/-- With eligible distances the first index combination exists. -/
theorem zero_mem_combinations (n : Fin 4 → Nat) (h : ∀ w, 1 ≤ n w) :
    (fun _ => 0) ∈ combinations n :=
  (mem_combinations n _).mpr fun w => h w

/-- The reconstruction on an eligible event: the search ends at the first
index combination whose candidate has minimal pre-correction deviation, and the
result is what the systematic corrector makes of that one candidate. -/
theorem reconstruct_eq (m : Libm) (s : Scratch) (hs : ScratchOk s) (eventTimes : ChamberTimes)
    (chamDesc : ChamberParameters) (hdepth : getDepth (getDistances eventTimes chamDesc) = 1) :
    ∃ l1 ind l2,
      combinations (fun w => (getDistances eventTimes chamDesc w).length) = l1 ++ ind :: l2 ∧
      (∀ j ∈ l1,
        (leastSquares (candidate eventTimes (getDistances eventTimes chamDesc) ind).points ⟨0, 0⟩).1
          < (leastSquares (candidate eventTimes (getDistances eventTimes chamDesc) j).points
              ⟨0, 0⟩).1) ∧
      (∀ j ∈ l2,
        (leastSquares (candidate eventTimes (getDistances eventTimes chamDesc) ind).points ⟨0, 0⟩).1
          ≤ (leastSquares (candidate eventTimes (getDistances eventTimes chamDesc) j).points
              ⟨0, 0⟩).1) ∧
      createTrackDescription m s eventTimes chamDesc =
        systemError m (candidate eventTimes (getDistances eventTimes chamDesc) ind) := by
  have hlen := getDepth_one _ hdepth
  have hd : ∀ ind ∈ combinations (fun w => (getDistances eventTimes chamDesc w).length),
      ∀ w, ind w < (getDistances eventTimes chamDesc w).length :=
    fun ind hi => (mem_combinations _ ind).mp hi
  have ht : ∀ ind ∈ combinations (fun w => (getDistances eventTimes chamDesc w).length),
      ∀ w, ind w < (eventTimes w).length :=
    fun ind hi w => lt_of_lt_of_le (hd ind hi w) (getDistances_length_le eventTimes chamDesc w)
  obtain ⟨s', _, hfold⟩ := foldlM_searchBody eventTimes (getDistances eventTimes chamDesc) _ hd ht
    { TrackDescription.empty with deviation := .inf } s hs
  have hcreate : createTrackDescription m s eventTimes chamDesc =
      match search eventTimes (getDistances eventTimes chamDesc)
          ({ TrackDescription.empty with deviation := .inf }, s) with
      | none => none
      | some (trackDesc, _) =>
        if trackDesc.deviation ≠ .inf then systemError m trackDesc else none := by
    unfold createTrackDescription
    simp only [hdepth, if_true]
  rw [hcreate, search_eq, hfold]
  rcases foldl_argmin (fun st : TrackDescription => st.deviation)
      (fun ind =>
        (leastSquares (candidate eventTimes (getDistances eventTimes chamDesc) ind).points ⟨0, 0⟩).1)
      (fun _ ind => candidate eventTimes (getDistances eventTimes chamDesc) ind)
      (fun _ ind => candidate_deviation eventTimes _ ind)
      (combinations fun w => (getDistances eventTimes chamDesc w).length)
      { TrackDescription.empty with deviation := .inf }
    with ⟨_, hall⟩ | ⟨l1, ind, l2, _, hl, heq, _, h1, h2⟩
  · exact absurd (Deviation.fin_lt_inf _) (hall _ (zero_mem_combinations _ hlen))
  · refine ⟨l1, ind, l2, hl, h1, h2, ?_⟩
    simp only []
    rw [heq, candidate_deviation, if_pos (fun h => Deviation.noConfusion h)]

/-- The reconstruction fails on an event that is not eligible. -/
theorem reconstruct_not_eligible (m : Libm) (s : Scratch) (eventTimes : ChamberTimes)
    (chamDesc : ChamberParameters) (hdepth : getDepth (getDistances eventTimes chamDesc) ≠ 1) :
    createTrackDescription m s eventTimes chamDesc = none := by
  unfold createTrackDescription
  simp only [hdepth, if_false]

/-! ## Systematic corrector: lemmas -/

/-- C10: line fitter degeneracy. For four points that all have the same
x-coordinate, whatever their y-coordinates, the denominator
`n * sumXX - sumX * sumX` is zero and `leastSquares` returns the sentinel `-1`
(and leaves the line untouched). -/
theorem leastSquares_same_x (x : ℚ) (points : Points) (line : Line2)
    (hlen : points.length = 4) (hx : ∀ p ∈ points, p.x = x) :
    (points.length : ℚ) * (sums points).sumXX - (sums points).sumX * (sums points).sumX = 0 ∧
      leastSquares points line = (-1, line) := by
  have hexp : (points.length : ℚ) * (sums points).sumXX
      - (sums points).sumX * (sums points).sumX = 0 := by
    obtain ⟨p0, p1, p2, p3, rfl⟩ := length_eq_four points hlen
    have h0 := hx p0 (by simp)
    have h1 := hx p1 (by simp)
    have h2 := hx p2 (by simp)
    have h3 := hx p3 (by simp)
    simp only [sums_sumX, sums_sumXX, List.map_cons, List.map_nil, List.sum_cons, List.sum_nil,
      List.length_cons, List.length_nil, h0, h1, h2, h3]
    push_cast
    ring
  refine ⟨hexp, leastSquares_unfit points line (Or.inr ?_)⟩
  intro h
  exact h.1 hexp

theorem leastSquares_same_x_witness :
    ((4 : ℕ) : ℚ) * (sums [⟨41, 1⟩, ⟨41, -2⟩, ⟨41, 7⟩, ⟨41, 0⟩]).sumXX
        - (sums [⟨41, 1⟩, ⟨41, -2⟩, ⟨41, 7⟩, ⟨41, 0⟩]).sumX
          * (sums [⟨41, 1⟩, ⟨41, -2⟩, ⟨41, 7⟩, ⟨41, 0⟩]).sumX = 0 ∧
      leastSquares [⟨41, 1⟩, ⟨41, -2⟩, ⟨41, 7⟩, ⟨41, 0⟩] ⟨3, 4⟩ = (-1, ⟨3, 4⟩) :=
  leastSquares_same_x 41 [⟨41, 1⟩, ⟨41, -2⟩, ⟨41, 7⟩, ⟨41, 0⟩] ⟨3, 4⟩ (by decide) (by decide!)

/-! ## Distance converter and hit selector: the claims -/

theorem u32sub_eq (t o : Nat) (ht : t < 2 ^ 32) (ho : o < t) : u32sub t o = t - o := by
  unfold u32sub
  omega

/-- C5: for every wire, the distance sequence produced by `getDistances` is the
raw-time sequence of that wire with every time `t <= offset` removed and every
remaining time replaced by `(t - offset) * speed`, in the original order; the
`uint32_t` subtraction is only evaluated for `t > offset`, where it does not
wrap. -/
theorem getDistances_filter_map (eventTimes : ChamberTimes) (chamDesc : ChamberParameters)
    (w : Fin 4) (ht : ∀ t ∈ eventTimes w, t < 2 ^ 32) :
    getDistances eventTimes chamDesc w =
        ((eventTimes w).filter fun t => decide ((chamDesc w).offset < t)).map
          (fun t : ℕ => ((t : ℚ) - ((chamDesc w).offset : ℚ)) * (chamDesc w).speed) ∧
      ∀ t ∈ eventTimes w, (chamDesc w).offset < t →
        u32sub t (chamDesc w).offset = t - (chamDesc w).offset := by
  constructor
  · unfold getDistances
    rw [wireDistances_eq]
    apply List.map_congr_left
    intro t htm
    obtain ⟨hmem, hgt⟩ := List.mem_filter.mp htm
    have hlt : (chamDesc w).offset < t := of_decide_eq_true hgt
    rw [u32sub_eq t _ (ht t hmem) hlt, Nat.cast_sub (le_of_lt hlt)]
  · intro t hmem hlt
    exact u32sub_eq t _ (ht t hmem) hlt

theorem getDistances_filter_map_witness :
    getDistances ![[5, 22, 10, 31], [3], [], [12]] ![⟨10, 1 / 4⟩, ⟨0, 1⟩, ⟨0, 1⟩, ⟨0, 1⟩] 0 =
        ((![[5, 22, 10, 31], [3], [], [12]] (0 : Fin 4)).filter fun t =>
            decide ((![⟨10, 1 / 4⟩, ⟨0, 1⟩, ⟨0, 1⟩, ⟨0, 1⟩] (0 : Fin 4) : WireParameters).offset < t)).map
          (fun t : ℕ => ((t : ℚ)
              - (((![⟨10, 1 / 4⟩, ⟨0, 1⟩, ⟨0, 1⟩, ⟨0, 1⟩] (0 : Fin 4) : WireParameters).offset : ℕ) : ℚ))
            * (![⟨10, 1 / 4⟩, ⟨0, 1⟩, ⟨0, 1⟩, ⟨0, 1⟩] (0 : Fin 4) : WireParameters).speed) ∧
      ∀ t ∈ (![[5, 22, 10, 31], [3], [], [12]] : ChamberTimes) 0,
        (![⟨10, 1 / 4⟩, ⟨0, 1⟩, ⟨0, 1⟩, ⟨0, 1⟩] (0 : Fin 4) : WireParameters).offset < t →
        u32sub t (![⟨10, 1 / 4⟩, ⟨0, 1⟩, ⟨0, 1⟩, ⟨0, 1⟩] (0 : Fin 4) : WireParameters).offset
          = t - (![⟨10, 1 / 4⟩, ⟨0, 1⟩, ⟨0, 1⟩, ⟨0, 1⟩] (0 : Fin 4) : WireParameters).offset :=
  getDistances_filter_map ![[5, 22, 10, 31], [3], [], [12]]
    ![⟨10, 1 / 4⟩, ⟨0, 1⟩, ⟨0, 1⟩, ⟨0, 1⟩] 0 (by decide)

/-- C4: the value returned by `getDepth` is the minimum over the four wires of
the number of distance candidates that survive the time filter; when that
minimum is `0` or at least `2` the reconstruction throws, and in particular it
throws on four empty raw-time sequences. -/
theorem reconstruct_fails_unless_depth_one (m : Libm) (s : Scratch) (eventTimes : ChamberTimes)
    (chamDesc : ChamberParameters) (hsize : ∀ w, (eventTimes w).length ≤ sizeMax) :
    getDepth (getDistances eventTimes chamDesc) =
        min (min (getDistances eventTimes chamDesc 0).length
            (getDistances eventTimes chamDesc 1).length)
          (min (getDistances eventTimes chamDesc 2).length
            (getDistances eventTimes chamDesc 3).length) ∧
      (min (min (getDistances eventTimes chamDesc 0).length
            (getDistances eventTimes chamDesc 1).length)
          (min (getDistances eventTimes chamDesc 2).length
            (getDistances eventTimes chamDesc 3).length) = 0 ∨
        2 ≤ min (min (getDistances eventTimes chamDesc 0).length
            (getDistances eventTimes chamDesc 1).length)
          (min (getDistances eventTimes chamDesc 2).length
            (getDistances eventTimes chamDesc 3).length) →
        createTrackDescription m s eventTimes chamDesc = none) ∧
      ((∀ w, eventTimes w = []) → createTrackDescription m s eventTimes chamDesc = none) := by
  have hle : ∀ w, (getDistances eventTimes chamDesc w).length ≤ sizeMax :=
    fun w => le_trans (getDistances_length_le eventTimes chamDesc w) (hsize w)
  have hdepth : getDepth (getDistances eventTimes chamDesc) =
      min (min (getDistances eventTimes chamDesc 0).length
          (getDistances eventTimes chamDesc 1).length)
        (min (getDistances eventTimes chamDesc 2).length
          (getDistances eventTimes chamDesc 3).length) := by
    rw [getDepth_eq]
    have h0 := hle 0
    have h1 := hle 1
    have h2 := hle 2
    have h3 := hle 3
    omega
  refine ⟨hdepth, fun h => ?_, fun h => ?_⟩
  · apply reconstruct_not_eligible
    rw [hdepth]
    omega
  · apply reconstruct_not_eligible
    rw [hdepth]
    have h0 : (getDistances eventTimes chamDesc 0).length = 0 := by
      have := getDistances_length_le eventTimes chamDesc 0
      rw [h 0] at this
      simpa using this
    rw [h0]
    simp

theorem reconstruct_fails_unless_depth_one_witness :
    getDepth (getDistances ![[], [], [], []] (fun _ => ⟨0, 1⟩)) =
        min (min (getDistances ![[], [], [], []] (fun _ => ⟨0, 1⟩) 0).length
            (getDistances ![[], [], [], []] (fun _ => ⟨0, 1⟩) 1).length)
          (min (getDistances ![[], [], [], []] (fun _ => ⟨0, 1⟩) 2).length
            (getDistances ![[], [], [], []] (fun _ => ⟨0, 1⟩) 3).length) ∧
      (min (min (getDistances ![[], [], [], []] (fun _ => ⟨0, 1⟩) 0).length
            (getDistances ![[], [], [], []] (fun _ => ⟨0, 1⟩) 1).length)
          (min (getDistances ![[], [], [], []] (fun _ => ⟨0, 1⟩) 2).length
            (getDistances ![[], [], [], []] (fun _ => ⟨0, 1⟩) 3).length) = 0 ∨
        2 ≤ min (min (getDistances ![[], [], [], []] (fun _ => ⟨0, 1⟩) 0).length
            (getDistances ![[], [], [], []] (fun _ => ⟨0, 1⟩) 1).length)
          (min (getDistances ![[], [], [], []] (fun _ => ⟨0, 1⟩) 2).length
            (getDistances ![[], [], [], []] (fun _ => ⟨0, 1⟩) 3).length) →
        createTrackDescription exampleLibm Scratch.init ![[], [], [], []] (fun _ => ⟨0, 1⟩)
          = none) ∧
      ((∀ w, (![[], [], [], []] : ChamberTimes) w = []) →
        createTrackDescription exampleLibm Scratch.init ![[], [], [], []] (fun _ => ⟨0, 1⟩)
          = none) :=
  reconstruct_fails_unless_depth_one exampleLibm Scratch.init ![[], [], [], []]
    (fun _ => ⟨0, 1⟩) (by decide)

/-! ## Reconstruction orchestrator: the claims -/

/-- C1, counterexample. On `timesTwoTracks` the first combination `(0,0,0,0)`
has pre-correction deviation `0` (slope `3 / 4`) and wins the search; corrected,
its deviation is `33309 / 32000`, which is what the reconstruction returns. The
combination `(1,1,1,0)` is enumerated too; its best sign variant has
pre-correction deviation `1 / 4` (slope `0`) and corrected deviation `1 / 4`,
smaller than the returned one. -/
theorem reconstruct_not_minimum_of_corrected :
    (createTrackDescription exampleLibm Scratch.init timesTwoTracks quarterSpeed).map
        (fun t => t.deviation) = some (.fin (33309 / 32000)) ∧
      ![1, 1, 1, 0] ∈ combinations (fun w => (getDistances timesTwoTracks quarterSpeed w).length) ∧
      (candidate timesTwoTracks (getDistances timesTwoTracks quarterSpeed) ![0, 0, 0, 0]).deviation
        = .fin 0 ∧
      (candidate timesTwoTracks (getDistances timesTwoTracks quarterSpeed) ![1, 1, 1, 0]).deviation
        = .fin (1 / 4) ∧
      (systemError exampleLibm
          (candidate timesTwoTracks (getDistances timesTwoTracks quarterSpeed) ![1, 1, 1, 0])).map
        (fun t => t.deviation) = some (.fin (1 / 4)) ∧
      Deviation.fin (1 / 4) < Deviation.fin (33309 / 32000) := by
  decide!

/-- C1, amended. Whenever the reconstruction returns a track, that track is the
output of the systematic corrector on the candidate (best sign variant, with
its times) of one enumerated index combination, and no enumerated combination
has a candidate of smaller pre-correction deviation: the candidates are
compared by their deviation before the correction, and the corrector runs once,
on the winner. -/
theorem reconstruct_corrects_uncorrected_minimum (m : Libm) (s : Scratch) (hs : ScratchOk s)
    (eventTimes : ChamberTimes) (chamDesc : ChamberParameters) (t : TrackDescription)
    (h : createTrackDescription m s eventTimes chamDesc = some t) :
    ∃ ind ∈ combinations (fun w => (getDistances eventTimes chamDesc w).length),
      systemError m (candidate eventTimes (getDistances eventTimes chamDesc) ind) = some t ∧
      ∀ ind' ∈ combinations (fun w => (getDistances eventTimes chamDesc w).length),
        ¬ (candidate eventTimes (getDistances eventTimes chamDesc) ind').deviation
          < (candidate eventTimes (getDistances eventTimes chamDesc) ind).deviation := by
  by_cases hdepth : getDepth (getDistances eventTimes chamDesc) = 1
  · obtain ⟨l1, ind, l2, hl, h1, h2, heq⟩ := reconstruct_eq m s hs eventTimes chamDesc hdepth
    refine ⟨ind, by rw [hl]; simp, heq.symm.trans h, fun ind' hmem => ?_⟩
    rw [candidate_deviation, candidate_deviation, Deviation.fin_lt_fin, not_lt]
    rw [hl] at hmem
    rcases List.mem_append.mp hmem with hm | hm
    · exact le_of_lt (h1 ind' hm)
    · rcases List.mem_cons.mp hm with rfl | hm
      · exact le_refl _
      · exact h2 ind' hm
  · rw [reconstruct_not_eligible m s eventTimes chamDesc hdepth] at h
    cases h

theorem reconstruct_corrects_uncorrected_minimum_witness :
    ∃ ind ∈ combinations (fun w => (getDistances timesTwoTracks quarterSpeed w).length),
      systemError exampleLibm
          (candidate timesTwoTracks (getDistances timesTwoTracks quarterSpeed) ind) =
        some ⟨⟨201 / 250, -178221 / 4000⟩,
          [⟨41, -243 / 20⟩, ⟨51, -45 / 16⟩, ⟨61, 75 / 16⟩, ⟨71, 243 / 20⟩],
          .fin (33309 / 32000), ![48, 12, 12, 48]⟩ ∧
      ∀ ind' ∈ combinations (fun w => (getDistances timesTwoTracks quarterSpeed w).length),
        ¬ (candidate timesTwoTracks (getDistances timesTwoTracks quarterSpeed) ind').deviation
          < (candidate timesTwoTracks (getDistances timesTwoTracks quarterSpeed) ind).deviation :=
  reconstruct_corrects_uncorrected_minimum exampleLibm Scratch.init (by decide!) timesTwoTracks
    quarterSpeed _ (by decide!)

/-- C3, the code at the failing input. On `timesDropped` the only distance of
wire 0 is `12`, produced by the raw time `22`; the reconstruction succeeds and
returns `times[0] = 5`, the dropped time, which is not above the offset `10`
and does not produce the distance `12`. -/
theorem reconstruct_times_misaligned :
    getDistances timesDropped offsetTen 0 = [12] ∧
      (createTrackDescription exampleLibm Scratch.init timesDropped offsetTen).map
        (fun t => t.times 0) = some 5 ∧
      ¬ (5 > (offsetTen 0).offset) ∧
      ((22 : ℚ) - ((offsetTen 0).offset : ℚ)) * (offsetTen 0).speed = 12 := by
  decide!

/-! ## The returned track -/

theorem sign_of_pos {y : ℚ} (h : 0 < y) : sign y = 1 := by
  unfold sign
  rw [if_pos h, if_neg (not_lt.mpr (le_of_lt h))]
  rfl

theorem sign_of_neg {y : ℚ} (h : y < 0) : sign y = -1 := by
  unfold sign
  rw [if_neg (not_lt.mpr (le_of_lt h)), if_pos h]
  rfl

theorem sign_zero : sign 0 = 0 := by
  unfold sign
  simp

theorem sign_cases_of_ne {y : ℚ} (h : y ≠ 0) : sign y = 1 ∨ sign y = -1 := by
  rcases lt_or_gt_of_ne h with h | h
  · exact Or.inr (sign_of_neg h)
  · exact Or.inl (sign_of_pos h)

theorem sign_eq_zero_iff (y : ℚ) : sign y = 0 ↔ y = 0 := by
  constructor
  · intro h
    by_contra hy
    rcases sign_cases_of_ne hy with h1 | h1 <;> rw [h1] at h <;> cases h
  · rintro rfl
    exact sign_zero

/-- Every wire has a non-zero nominal offset. -/
theorem sign_mWires (i : Fin 4) : sign (mWires i).y = 1 ∨ sign (mWires i).y = -1 := by
  apply sign_cases_of_ne
  fin_cases i <;> simp [mWires]

theorem clamp_flip (y l : ℚ) : (if |y| > l then l else y) = if |y| ≤ l then y else l := by
  split_ifs with h1 h2 h2
  · exact absurd h2 (not_le.mpr h1)
  · rfl
  · rfl
  · exact absurd (not_le.mp h2) h1

/-- One iteration of the corrector on a point off the centerline. -/
theorem systemErrorStep_eq (m : Libm) (t : TrackDescription) (i : Fin 4)
    (hy : getY t.points i ≠ 0) :
    systemErrorStep m t i =
      some { t with points := setY t.points i (correctedY m t.line.k i (getY t.points i)) } := by
  unfold systemErrorStep
  simp only [i.isLt, dite_true, Fin.eta, clamp_flip]
  rcases sign_cases_of_ne hy with hs | hs <;> rcases sign_mWires i with hw | hw
  · simp [hs, hw, correctedY, clampR, clampLimit, getSystemError, mul_assoc]
  · simp [hs, hw, correctedY, clampR, clampLimit, getSystemError, mul_assoc]
  · simp [hs, hw, correctedY, clampR, clampLimit, getSystemError, mul_assoc]
  · simp [hs, hw, correctedY, clampR, clampLimit, getSystemError, mul_assoc]

/-- One iteration of the corrector on a point on the centerline. -/
theorem systemErrorStep_zero (m : Libm) (t : TrackDescription) (i : Nat)
    (hy : getY t.points i = 0) : systemErrorStep m t i = none := by
  unfold systemErrorStep
  simp [hy, sign_zero]

theorem range_four : List.range 4 = [0, 1, 2, 3] := by decide

/-- The corrector on a track of four points, none of them on the centerline:
every point is corrected with the slope the line had on entry, then the track
is re-fitted. -/
theorem systemError_four (m : Libm) (t : TrackDescription) (p0 p1 p2 p3 : Vec2)
    (hp : t.points = [p0, p1, p2, p3]) (h0 : p0.y ≠ 0) (h1 : p1.y ≠ 0) (h2 : p2.y ≠ 0)
    (h3 : p3.y ≠ 0) :
    systemError m t =
      some ⟨(leastSquares (correctedPoints m t.line.k t.points) t.line).2,
        correctedPoints m t.line.k t.points,
        .fin (leastSquares (correctedPoints m t.line.k t.points) t.line).1, t.times⟩ := by
  obtain ⟨line, pts, dev, times⟩ := t
  simp only [] at hp
  subst hp
  have e0 := systemErrorStep_eq m ⟨line, [p0, p1, p2, p3], dev, times⟩ 0 (by simpa [getY] using h0)
  have e1 := systemErrorStep_eq m
    ⟨line, [⟨p0.x, correctedY m line.k 0 p0.y⟩, p1, p2, p3], dev, times⟩ 1
    (by simpa [getY] using h1)
  have e2 := systemErrorStep_eq m
    ⟨line, [⟨p0.x, correctedY m line.k 0 p0.y⟩, ⟨p1.x, correctedY m line.k 1 p1.y⟩, p2, p3],
      dev, times⟩ 2 (by simpa [getY] using h2)
  have e3 := systemErrorStep_eq m
    ⟨line, [⟨p0.x, correctedY m line.k 0 p0.y⟩, ⟨p1.x, correctedY m line.k 1 p1.y⟩,
      ⟨p2.x, correctedY m line.k 2 p2.y⟩, p3], dev, times⟩ 3 (by simpa [getY] using h3)
  have h33 : ((3 : Fin 4) : ℕ) = 3 := rfl
  simp only [Fin.val_zero, Fin.val_one, Fin.val_two, h33, getY, setY, List.getD_cons_zero,
    List.getD_cons_succ] at e0 e1 e2 e3
  unfold systemError
  simp only [List.length_cons, List.length_nil, Nat.reduceAdd, range_four, List.foldlM_cons,
    List.foldlM_nil, e0, e1, e2, e3, Option.bind_eq_bind, Option.some_bind, Option.pure_def,
    Option.map_some', correctedPoints, wireIdx, List.zipWith_cons_cons, List.zipWith_nil_left]

/-- The corrector on a track of four points, one of them on the centerline. -/
theorem systemError_none_of_zero (m : Libm) (t : TrackDescription) (p0 p1 p2 p3 : Vec2)
    (hp : t.points = [p0, p1, p2, p3])
    (hz : p0.y = 0 ∨ p1.y = 0 ∨ p2.y = 0 ∨ p3.y = 0) : systemError m t = none := by
  obtain ⟨line, pts, dev, times⟩ := t
  simp only [] at hp
  subst hp
  have h33 : ((3 : Fin 4) : ℕ) = 3 := rfl
  unfold systemError
  simp only [List.length_cons, List.length_nil, Nat.reduceAdd, range_four, List.foldlM_cons,
    List.foldlM_nil]
  by_cases h0 : p0.y = 0
  · have z0 := systemErrorStep_zero m ⟨line, [p0, p1, p2, p3], dev, times⟩ 0
      (by simpa [getY] using h0)
    simp only [z0, Option.bind_eq_bind, Option.none_bind, Option.map_none']
  have e0 := systemErrorStep_eq m ⟨line, [p0, p1, p2, p3], dev, times⟩ 0 (by simpa [getY] using h0)
  simp only [Fin.val_zero, getY, setY, List.getD_cons_zero] at e0
  by_cases h1 : p1.y = 0
  · have z1 := systemErrorStep_zero m
      ⟨line, [⟨p0.x, correctedY m line.k 0 p0.y⟩, p1, p2, p3], dev, times⟩ 1
      (by simpa [getY] using h1)
    simp only [e0, z1, Option.bind_eq_bind, Option.some_bind, Option.none_bind, Option.map_none']
  have e1 := systemErrorStep_eq m
    ⟨line, [⟨p0.x, correctedY m line.k 0 p0.y⟩, p1, p2, p3], dev, times⟩ 1
    (by simpa [getY] using h1)
  simp only [Fin.val_one, getY, setY, List.getD_cons_zero, List.getD_cons_succ] at e1
  by_cases h2 : p2.y = 0
  · have z2 := systemErrorStep_zero m
      ⟨line, [⟨p0.x, correctedY m line.k 0 p0.y⟩, ⟨p1.x, correctedY m line.k 1 p1.y⟩, p2, p3],
        dev, times⟩ 2 (by simpa [getY] using h2)
    simp only [e0, e1, z2, Option.bind_eq_bind, Option.some_bind, Option.none_bind,
      Option.map_none']
  have e2 := systemErrorStep_eq m
    ⟨line, [⟨p0.x, correctedY m line.k 0 p0.y⟩, ⟨p1.x, correctedY m line.k 1 p1.y⟩, p2, p3],
      dev, times⟩ 2 (by simpa [getY] using h2)
  simp only [Fin.val_two, getY, setY, List.getD_cons_zero, List.getD_cons_succ] at e2
  have h3 : p3.y = 0 := by
    rcases hz with h | h | h | h
    · exact absurd h h0
    · exact absurd h h1
    · exact absurd h h2
    · exact h
  have z3 := systemErrorStep_zero m
    ⟨line, [⟨p0.x, correctedY m line.k 0 p0.y⟩, ⟨p1.x, correctedY m line.k 1 p1.y⟩,
      ⟨p2.x, correctedY m line.k 2 p2.y⟩, p3], dev, times⟩ 3 (by simpa [getY] using h3)
  simp only [e0, e1, e2, z3, Option.bind_eq_bind, Option.some_bind, Option.none_bind,
    Option.map_none']

theorem getY_four (p0 p1 p2 p3 : Vec2) :
    getY [p0, p1, p2, p3] ((0 : Fin 4) : ℕ) = p0.y ∧ getY [p0, p1, p2, p3] ((1 : Fin 4) : ℕ) = p1.y ∧
      getY [p0, p1, p2, p3] ((2 : Fin 4) : ℕ) = p2.y ∧
      getY [p0, p1, p2, p3] ((3 : Fin 4) : ℕ) = p3.y :=
  ⟨rfl, rfl, rfl, rfl⟩

/-! ## Systematic corrector: the claims -/

/-- C12: on a candidate of four points the corrector returns `false` exactly
when at least one point has `y = 0`, which is when
`sign (y_i) * sign (wire[i].offset) = 0` for some `i`; every wire's nominal
offset is non-zero, so a candidate whose four y-coordinates are all non-zero is
accepted. -/
theorem systemError_rejects_iff_centerline (m : Libm) (t : TrackDescription)
    (hlen : t.points.length = 4) :
    (systemError m t = none ↔ ∃ i : Fin 4, getY t.points i = 0) ∧
      (∀ i : Fin 4, getY t.points i = 0 ↔ sign (getY t.points i) * sign (mWires i).y = 0) ∧
      (∀ i : Fin 4, sign (mWires i).y ≠ 0) ∧
      ((∀ i : Fin 4, getY t.points i ≠ 0) → (systemError m t).isSome = true) := by
  obtain ⟨p0, p1, p2, p3, hp⟩ := length_eq_four t.points hlen
  obtain ⟨g0, g1, g2, g3⟩ := getY_four p0 p1 p2 p3
  have hw : ∀ i : Fin 4, sign (mWires i).y ≠ 0 := by
    intro i h
    rcases sign_mWires i with h1 | h1 <;> rw [h1] at h <;> cases h
  have hsome : (∀ i : Fin 4, getY t.points i ≠ 0) → (systemError m t).isSome = true := by
    intro h
    rw [hp] at h
    rw [systemError_four m t p0 p1 p2 p3 hp (g0 ▸ h 0) (g1 ▸ h 1) (g2 ▸ h 2) (g3 ▸ h 3)]
    rfl
  refine ⟨⟨fun hnone => ?_, fun hex => ?_⟩, fun i => ?_, hw, hsome⟩
  · by_contra hall
    have := hsome (fun i hi => hall ⟨i, hi⟩)
    rw [hnone] at this
    cases this
  · obtain ⟨i, hi⟩ := hex
    rw [hp] at hi
    apply systemError_none_of_zero m t p0 p1 p2 p3 hp
    fin_cases i
    · exact Or.inl (g0 ▸ hi)
    · exact Or.inr (Or.inl (g1 ▸ hi))
    · exact Or.inr (Or.inr (Or.inl (g2 ▸ hi)))
    · exact Or.inr (Or.inr (Or.inr (g3 ▸ hi)))
  · rw [mul_eq_zero, sign_eq_zero_iff]
    exact ⟨Or.inl, fun h => h.resolve_right (hw i)⟩

theorem systemError_rejects_iff_centerline_witness :
    (systemError exampleLibm steepTrack = none ↔ ∃ i : Fin 4, getY steepTrack.points i = 0) ∧
      (∀ i : Fin 4, getY steepTrack.points i = 0 ↔
        sign (getY steepTrack.points i) * sign (mWires i).y = 0) ∧
      (∀ i : Fin 4, sign (mWires i).y ≠ 0) ∧
      ((∀ i : Fin 4, getY steepTrack.points i ≠ 0) →
        (systemError exampleLibm steepTrack).isSome = true) :=
  systemError_rejects_iff_centerline exampleLibm steepTrack (by decide)

/-- C13, counterexample. With one raw time `10` per wire, offset `0` and speed
`1`, the distances are `10, 10, 10, 10` and the sign resolver returns the
variant with the `+` sign on all four wires, whose points
`10.75, 9.25, 10.75, 9.25` alternate with the wire offsets: its deviation is
`9 / 5`, not `0`, and no sign variant has deviation `0`. -/
theorem scenario_deviation_not_zero :
    (∀ w, getDistances timesTen unitSpeed w = [10]) ∧
      (createTrackDescriptionOfDistances Scratch.init ![10, 10, 10, 10]).1.deviation
        = .fin (9 / 5) ∧
      (createTrackDescriptionOfDistances Scratch.init ![10, 10, 10, 10]).1.deviation ≠ .fin 0 ∧
      ∀ v, v < 16 → (leastSquares (variantPoints ![10, 10, 10, 10] v) ⟨0, 0⟩).1 ≠ 0 := by
  decide!

/-- C13, amended. In the end-to-end scenario (wires at `41, 51, 61, 71` with
offsets `+0.75, -0.75, +0.75, -0.75`, calibration offset `0` and speed `1`, raw
times `10, 10, 10, 10`) the distances are `10, 10, 10, 10`, the sign resolver
selects variant `0`, the same (`+`) sign on all four wires, with the points
`10.75, 9.25, 10.75, 9.25` and the line of slope `-3 / 100`, and its deviation
before the systematic correction is `9 / 5`. -/
theorem scenario_selects_all_plus (s : Scratch) (hs : ScratchOk s) :
    (∀ w, getDistances timesTen unitSpeed w = [10]) ∧
      distancesAt (getDistances timesTen unitSpeed) (fun _ => 0) = ![10, 10, 10, 10] ∧
      (createTrackDescriptionOfDistances s ![10, 10, 10, 10]).1.points
        = variantPoints ![10, 10, 10, 10] 0 ∧
      variantPoints ![10, 10, 10, 10] 0
        = [⟨41, 43 / 4⟩, ⟨51, 37 / 4⟩, ⟨61, 43 / 4⟩, ⟨71, 37 / 4⟩] ∧
      (createTrackDescriptionOfDistances s ![10, 10, 10, 10]).1.line = ⟨-3 / 100, 292 / 25⟩ ∧
      (createTrackDescriptionOfDistances s ![10, 10, 10, 10]).1.deviation = .fin (9 / 5) := by
  rw [(signResolver_scratch s hs ![10, 10, 10, 10]).1]
  decide!

theorem scenario_selects_all_plus_witness :
    (∀ w, getDistances timesTen unitSpeed w = [10]) ∧
      distancesAt (getDistances timesTen unitSpeed) (fun _ => 0) = ![10, 10, 10, 10] ∧
      (createTrackDescriptionOfDistances Scratch.init ![10, 10, 10, 10]).1.points
        = variantPoints ![10, 10, 10, 10] 0 ∧
      variantPoints ![10, 10, 10, 10] 0
        = [⟨41, 43 / 4⟩, ⟨51, 37 / 4⟩, ⟨61, 43 / 4⟩, ⟨71, 37 / 4⟩] ∧
      (createTrackDescriptionOfDistances Scratch.init ![10, 10, 10, 10]).1.line
        = ⟨-3 / 100, 292 / 25⟩ ∧
      (createTrackDescriptionOfDistances Scratch.init ![10, 10, 10, 10]).1.deviation
        = .fin (9 / 5) :=
  scenario_selects_all_plus Scratch.init (by decide!)

/-! ## Index safety -/

/-- C20: when the eligibility check passes, every wire has at least one distance
and at least one raw time, and for every enumerated index combination each
index is below the length of the wire's distance sequence and of its raw-time
sequence; so the modulo by the sequence size does not divide by zero and
leaves the index unchanged, and `createTrackDistances` and `createTrackTimes`
return the elements at these indices without a failed lookup. -/
theorem eligible_indices_in_range (eventTimes : ChamberTimes) (chamDesc : ChamberParameters)
    (h : getDepth (getDistances eventTimes chamDesc) = 1) :
    (∀ w, (getDistances eventTimes chamDesc w).length ≠ 0 ∧ (eventTimes w).length ≠ 0) ∧
      ∀ ind ∈ combinations (fun w => (getDistances eventTimes chamDesc w).length),
        (∀ w, ind w < (getDistances eventTimes chamDesc w).length ∧
          ind w < (eventTimes w).length ∧
          ind w % (getDistances eventTimes chamDesc w).length = ind w ∧
          ind w % (eventTimes w).length = ind w ∧
          (getDistances eventTimes chamDesc w)[ind w]?
            = some (distancesAt (getDistances eventTimes chamDesc) ind w) ∧
          (eventTimes w)[ind w]? = some (timesAt eventTimes ind w)) ∧
        createTrackDistances (getDistances eventTimes chamDesc) ind
          = some (distancesAt (getDistances eventTimes chamDesc) ind) ∧
        createTrackTimes eventTimes ind = some (timesAt eventTimes ind) := by
  have hlen := getDepth_one _ h
  have hle := getDistances_length_le eventTimes chamDesc
  refine ⟨fun w => ⟨?_, ?_⟩, fun ind hind => ?_⟩
  · have := hlen w
    omega
  · have := hlen w
    have := hle w
    omega
  · have hd : ∀ w, ind w < (getDistances eventTimes chamDesc w).length :=
      (mem_combinations _ ind).mp hind
    have ht : ∀ w, ind w < (eventTimes w).length := fun w => lt_of_lt_of_le (hd w) (hle w)
    refine ⟨fun w => ⟨hd w, ht w, Nat.mod_eq_of_lt (hd w), Nat.mod_eq_of_lt (ht w), ?_, ?_⟩,
      createTrackDistances_eq _ ind hd, createTrackTimes_eq _ ind ht⟩
    · unfold distancesAt
      rw [List.getD_eq_getElem?_getD, List.getElem?_eq_getElem (hd w)]
      rfl
    · unfold timesAt
      rw [List.getD_eq_getElem?_getD, List.getElem?_eq_getElem (ht w)]
      rfl

theorem eligible_indices_in_range_witness :
    (∀ w, (getDistances timesDropped offsetTen w).length ≠ 0 ∧ (timesDropped w).length ≠ 0) ∧
      ∀ ind ∈ combinations (fun w => (getDistances timesDropped offsetTen w).length),
        (∀ w, ind w < (getDistances timesDropped offsetTen w).length ∧
          ind w < (timesDropped w).length ∧
          ind w % (getDistances timesDropped offsetTen w).length = ind w ∧
          ind w % (timesDropped w).length = ind w ∧
          (getDistances timesDropped offsetTen w)[ind w]?
            = some (distancesAt (getDistances timesDropped offsetTen) ind w) ∧
          (timesDropped w)[ind w]? = some (timesAt timesDropped ind w)) ∧
        createTrackDistances (getDistances timesDropped offsetTen) ind
          = some (distancesAt (getDistances timesDropped offsetTen) ind) ∧
        createTrackTimes timesDropped ind = some (timesAt timesDropped ind) :=
  eligible_indices_in_range timesDropped offsetTen (by decide!)

/-! ## Enumeration of the index combinations -/

theorem length_flatMap_const {α β : Type} (l : List α) (f : α → List β) (c : Nat)
    (h : ∀ a ∈ l, (f a).length = c) : (l.flatMap f).length = l.length * c := by
  induction l with
  | nil => simp
  | cons a l ih =>
    rw [List.flatMap_cons, List.length_append, h a (List.mem_cons_self _ _),
      ih (fun b hb => h b (List.mem_cons_of_mem _ hb)), List.length_cons]
    ring

theorem combinations_length (n : Fin 4 → Nat) :
    (combinations n).length = n 0 * n 1 * n 2 * n 3 := by
  unfold combinations
  rw [length_flatMap_const _ _ (n 1 * n 2 * n 3), List.length_range]
  · ring
  · intro i0 _
    rw [length_flatMap_const _ _ (n 2 * n 3), List.length_range]
    · ring
    · intro i1 _
      rw [length_flatMap_const _ _ (n 3), List.length_range]
      intro i2 _
      rw [List.length_map, List.length_range]

theorem combinations_pairwise (n : Fin 4 → Nat) : (combinations n).Pairwise lexLt := by
  unfold combinations
  simp only [List.pairwise_flatMap, List.pairwise_map]
  refine ⟨fun i0 _ => ⟨fun i1 _ => ⟨fun i2 _ => ?_, ?_⟩, ?_⟩, ?_⟩
  · exact (List.pairwise_lt_range _).imp (fun h => by simp [lexLt, h])
  · refine (List.pairwise_lt_range _).imp (fun h x hx y hy => ?_)
    simp only [List.mem_map, List.mem_range] at hx hy
    obtain ⟨_, _, rfl⟩ := hx
    obtain ⟨_, _, rfl⟩ := hy
    simp [lexLt, h]
  · refine (List.pairwise_lt_range _).imp (fun h x hx y hy => ?_)
    simp only [List.mem_flatMap, List.mem_map, List.mem_range] at hx hy
    obtain ⟨_, _, _, _, rfl⟩ := hx
    obtain ⟨_, _, _, _, rfl⟩ := hy
    simp [lexLt, h]
  · refine (List.pairwise_lt_range _).imp (fun h x hx y hy => ?_)
    simp only [List.mem_flatMap, List.mem_map, List.mem_range] at hx hy
    obtain ⟨_, _, _, _, _, _, rfl⟩ := hx
    obtain ⟨_, _, _, _, _, _, rfl⟩ := hy
    simp [lexLt, h]

theorem lexLt_ne (a b : Indecies) (h : lexLt a b) : a ≠ b := by
  rintro rfl
  unfold lexLt at h
  omega

/-- C18: the four nested loops run the loop body, and with it the sign
resolver, on the index tuples `(i0, i1, i2, i3)` with `i_w < n_w`, each exactly
once and in lexicographic order, `n0 * n1 * n2 * n3` tuples in total (one for
the counts `(1,1,1,1)`, two for `(1,2,1,1)`); on each tuple the sign resolver
receives distance number `i_w` of every wire `w`. -/
theorem search_enumerates_cross_product (eventTimes : ChamberTimes) (ed : ChamberDistances) :
    (∀ st, search eventTimes ed st =
        (combinations fun w => (ed w).length).foldlM (searchBody eventTimes ed) st) ∧
      (∀ ind ∈ combinations (fun w => (ed w).length), ∀ st,
        searchBody eventTimes ed st ind =
            keepBest eventTimes ind st.1
              (createTrackDescriptionOfDistances st.2 (distancesAt ed ind)) ∧
          ∀ w, (ed w)[ind w]? = some (distancesAt ed ind w)) ∧
      (∀ ind, ind ∈ combinations (fun w => (ed w).length) ↔ ∀ w, ind w < (ed w).length) ∧
      (combinations fun w => (ed w).length).Pairwise lexLt ∧
      (combinations fun w => (ed w).length).Nodup ∧
      (combinations fun w => (ed w).length).length =
        (ed 0).length * (ed 1).length * (ed 2).length * (ed 3).length ∧
      (combinations ![1, 1, 1, 1]).length = 1 ∧ (combinations ![1, 2, 1, 1]).length = 2 := by
  refine ⟨search_eq eventTimes ed, fun ind hind st => ?_, mem_combinations _,
    combinations_pairwise _, (combinations_pairwise _).imp (fun h => lexLt_ne _ _ h),
    combinations_length _, by decide, by decide⟩
  have hd := (mem_combinations _ ind).mp hind
  refine ⟨?_, fun w => ?_⟩
  · unfold searchBody
    rw [createTrackDistances_eq ed ind hd]
    simp only [Option.bind_eq_bind, Option.some_bind]
  · unfold distancesAt
    rw [List.getD_eq_getElem?_getD, List.getElem?_eq_getElem (hd w)]
    rfl

/-! ## Independence of the static scratch state -/

theorem leastSquares_line_irrelevant (pts : Points) (l l' : Line2) :
    (leastSquares pts l).1 = (leastSquares pts l').1 ∧
      ((leastSquares pts l).1 ≠ -1 → (leastSquares pts l).2 = (leastSquares pts l').2) := by
  by_cases hfit : 2 ≤ pts.length ∧
      ((pts.length : ℚ) * (sums pts).sumXX - (sums pts).sumX * (sums pts).sumX ≠ 0 ∧
        |(pts.length : ℚ) * (sums pts).sumXX - (sums pts).sumX * (sums pts).sumX| > 1 / 10 ^ 60)
  · obtain ⟨hlen, hexp, hbig⟩ := hfit
    rw [leastSquares_fit pts l hlen hexp hbig, leastSquares_fit pts l' hlen hexp hbig]
    exact ⟨rfl, fun _ => rfl⟩
  · have hun : pts.length < 2 ∨
        ¬ ((pts.length : ℚ) * (sums pts).sumXX - (sums pts).sumX * (sums pts).sumX ≠ 0 ∧
          |(pts.length : ℚ) * (sums pts).sumXX - (sums pts).sumX * (sums pts).sumX|
            > 1 / 10 ^ 60) := by
      by_cases hl : pts.length < 2
      · exact Or.inl hl
      · exact Or.inr (fun hc => hfit ⟨by omega, hc⟩)
    rw [leastSquares_unfit pts l hun, leastSquares_unfit pts l' hun]
    exact ⟨rfl, fun h => absurd rfl h⟩

/-- One iteration of the sign resolver reads the scratch line only after the
fit of this iteration has written it: the track it keeps and the points it
leaves do not depend on the scratch line on entry. -/
theorem signStep_line_irrelevant (d : TrackDistances) (best : TrackDescription) (pts : Points)
    (l l' : Line2) (i : Nat) :
    (signStep d (best, ⟨pts, l⟩) i).1 = (signStep d (best, ⟨pts, l'⟩) i).1 ∧
      (signStep d (best, ⟨pts, l⟩) i).2.tempPoints
        = (signStep d (best, ⟨pts, l'⟩) i).2.tempPoints := by
  obtain ⟨h1, h2⟩ := leastSquares_line_irrelevant (writeSigns d i pts) l l'
  unfold signStep
  simp only []
  by_cases hc : (leastSquares (writeSigns d i pts) l).1 ≠ -1 ∧
      Deviation.fin (leastSquares (writeSigns d i pts) l).1 < best.deviation
  · have hc' := hc
    rw [h1] at hc'
    rw [if_pos hc, if_pos hc', h2 hc.1, h1]
    exact ⟨rfl, rfl⟩
  · have hc' := hc
    rw [h1] at hc'
    rw [if_neg hc, if_neg hc']
    exact ⟨rfl, rfl⟩

theorem foldl_signStep_line_irrelevant (d : TrackDistances) (lst : List Nat)
    (best : TrackDescription) (pts : Points) (l l' : Line2) :
    (lst.foldl (signStep d) (best, ⟨pts, l⟩)).1 = (lst.foldl (signStep d) (best, ⟨pts, l'⟩)).1 := by
  induction lst generalizing best pts l l' with
  | nil => rfl
  | cons a lst ih =>
    rw [List.foldl_cons, List.foldl_cons]
    obtain ⟨h1, h2⟩ := signStep_line_irrelevant d best pts l l' a
    rcases hst : signStep d (best, ⟨pts, l⟩) a with ⟨b1, ⟨p1, l1⟩⟩
    rcases hst' : signStep d (best, ⟨pts, l'⟩) a with ⟨b2, ⟨p2, l2⟩⟩
    rw [hst, hst'] at h1 h2
    simp only [] at h1 h2
    subst h1
    subst h2
    exact ih b1 p1 l1 l2

/-- The inner loop of the sign resolver overwrites every y-coordinate of a
four-point buffer: what it leaves depends on the x-coordinates only. -/
theorem writeSigns_overwrites (d : TrackDistances) (i : Nat) (pts pts' : Points)
    (hlen : pts.length = 4) (hx : pts.map (fun p => p.x) = pts'.map fun p => p.x) :
    writeSigns d i pts = writeSigns d i pts' := by
  obtain ⟨p0, p1, p2, p3, rfl⟩ := length_eq_four pts hlen
  obtain ⟨q0, q1, q2, q3, rfl⟩ := length_eq_four pts' (by
    have := congrArg List.length hx
    simpa using this.symm)
  simp only [List.map_cons, List.map_nil, List.cons.injEq, and_true] at hx
  obtain ⟨h0, h1, h2, h3⟩ := hx
  simp [writeSigns, wireIdx, setY, h0, h1, h2, h3]

/-- The reconstruction on an eligible event, without the scratch state. -/
theorem reconstruct_eq_fold (m : Libm) (s : Scratch) (hs : ScratchOk s) (eventTimes : ChamberTimes)
    (chamDesc : ChamberParameters) (hdepth : getDepth (getDistances eventTimes chamDesc) = 1) :
    ScratchOk (scratchAfter s eventTimes chamDesc) ∧
      createTrackDescription m s eventTimes chamDesc =
        if ((combinations fun w => (getDistances eventTimes chamDesc w).length).foldl
            (fun b ind =>
              if Deviation.fin (leastSquares
                    (candidate eventTimes (getDistances eventTimes chamDesc) ind).points ⟨0, 0⟩).1
                  < b.deviation
              then candidate eventTimes (getDistances eventTimes chamDesc) ind else b)
            { TrackDescription.empty with deviation := .inf }).deviation ≠ .inf
        then systemError m
          ((combinations fun w => (getDistances eventTimes chamDesc w).length).foldl
            (fun b ind =>
              if Deviation.fin (leastSquares
                    (candidate eventTimes (getDistances eventTimes chamDesc) ind).points ⟨0, 0⟩).1
                  < b.deviation
              then candidate eventTimes (getDistances eventTimes chamDesc) ind else b)
            { TrackDescription.empty with deviation := .inf })
        else none := by
  have hd : ∀ ind ∈ combinations (fun w => (getDistances eventTimes chamDesc w).length),
      ∀ w, ind w < (getDistances eventTimes chamDesc w).length :=
    fun ind hi => (mem_combinations _ ind).mp hi
  have ht : ∀ ind ∈ combinations (fun w => (getDistances eventTimes chamDesc w).length),
      ∀ w, ind w < (eventTimes w).length :=
    fun ind hi w => lt_of_lt_of_le (hd ind hi w) (getDistances_length_le eventTimes chamDesc w)
  obtain ⟨s', hs', hfold⟩ := foldlM_searchBody eventTimes (getDistances eventTimes chamDesc) _ hd ht
    { TrackDescription.empty with deviation := .inf } s hs
  constructor
  · have hafter : scratchAfter s eventTimes chamDesc =
        match search eventTimes (getDistances eventTimes chamDesc)
            ({ TrackDescription.empty with deviation := .inf }, s) with
        | none => s
        | some (_, s') => s' := by
      unfold scratchAfter
      simp only [hdepth, if_true]
    rw [hafter, search_eq, hfold]
    exact hs'
  · have hcreate : createTrackDescription m s eventTimes chamDesc =
        match search eventTimes (getDistances eventTimes chamDesc)
            ({ TrackDescription.empty with deviation := .inf }, s) with
        | none => none
        | some (trackDesc, _) =>
          if trackDesc.deviation ≠ .inf then systemError m trackDesc else none := by
      unfold createTrackDescription
      simp only [hdepth, if_true]
    rw [hcreate, search_eq, hfold]

/-- C14: the reconstruction is deterministic in its arguments. The scratch
buffer holds the wire positions at program start and after every call, and for
any two such scratch states two calls with the same raw hit times and
calibration both fail or return the same track; so does the sign resolver on
the same distances. The inner loop of the sign resolver overwrites every
y-coordinate of the buffer before each fit, and an iteration never uses the
scratch line it found on entry, only the line its own fit has written. -/
theorem reconstruct_deterministic (m : Libm) (s s' : Scratch) (hs : ScratchOk s)
    (hs' : ScratchOk s') (eventTimes : ChamberTimes) (chamDesc : ChamberParameters) :
    createTrackDescription m s eventTimes chamDesc
        = createTrackDescription m s' eventTimes chamDesc ∧
      ScratchOk Scratch.init ∧ ScratchOk (scratchAfter s eventTimes chamDesc) ∧
      (∀ d : TrackDistances,
        (createTrackDescriptionOfDistances s d).1 = (createTrackDescriptionOfDistances s' d).1 ∧
        ScratchOk (createTrackDescriptionOfDistances s d).2) ∧
      (∀ (d : TrackDistances) (i : Nat) (pts pts' : Points), pts.length = 4 →
        pts.map (fun p => p.x) = pts'.map (fun p => p.x) →
        writeSigns d i pts = writeSigns d i pts') ∧
      (∀ (d : TrackDistances) (best : TrackDescription) (pts : Points) (l l' : Line2) (i : Nat),
        (signStep d (best, ⟨pts, l⟩) i).1 = (signStep d (best, ⟨pts, l'⟩) i).1) ∧
      ∀ (d : TrackDistances) (pts : Points) (l l' : Line2),
        (createTrackDescriptionOfDistances ⟨pts, l⟩ d).1
          = (createTrackDescriptionOfDistances ⟨pts, l'⟩ d).1 := by
  refine ⟨?_, scratchOk_init, ?_, fun d => ⟨?_, (signResolver_scratch s hs d).2⟩,
    fun d i pts pts' hlen hx => writeSigns_overwrites d i pts pts' hlen hx,
    fun d best pts l l' i => (signStep_line_irrelevant d best pts l l' i).1,
    fun d pts l l' => foldl_signStep_line_irrelevant d _ _ pts l l'⟩
  · by_cases hdepth : getDepth (getDistances eventTimes chamDesc) = 1
    · rw [(reconstruct_eq_fold m s hs eventTimes chamDesc hdepth).2,
        (reconstruct_eq_fold m s' hs' eventTimes chamDesc hdepth).2]
    · rw [reconstruct_not_eligible m s eventTimes chamDesc hdepth,
        reconstruct_not_eligible m s' eventTimes chamDesc hdepth]
  · by_cases hdepth : getDepth (getDistances eventTimes chamDesc) = 1
    · exact (reconstruct_eq_fold m s hs eventTimes chamDesc hdepth).1
    · unfold scratchAfter
      simp only [hdepth, if_false]
      exact hs
  · exact (signResolver_scratch s hs d).1.trans (signResolver_scratch s' hs' d).1.symm

theorem reconstruct_deterministic_witness :
    createTrackDescription exampleLibm Scratch.init timesTwoTracks quarterSpeed
        = createTrackDescription exampleLibm usedScratch timesTwoTracks quarterSpeed ∧
      ScratchOk Scratch.init ∧ ScratchOk (scratchAfter Scratch.init timesTwoTracks quarterSpeed) ∧
      (∀ d : TrackDistances,
        (createTrackDescriptionOfDistances Scratch.init d).1
          = (createTrackDescriptionOfDistances usedScratch d).1 ∧
        ScratchOk (createTrackDescriptionOfDistances Scratch.init d).2) ∧
      (∀ (d : TrackDistances) (i : Nat) (pts pts' : Points), pts.length = 4 →
        pts.map (fun p => p.x) = pts'.map (fun p => p.x) →
        writeSigns d i pts = writeSigns d i pts') ∧
      (∀ (d : TrackDistances) (best : TrackDescription) (pts : Points) (l l' : Line2) (i : Nat),
        (signStep d (best, ⟨pts, l⟩) i).1 = (signStep d (best, ⟨pts, l'⟩) i).1) ∧
      ∀ (d : TrackDistances) (pts : Points) (l l' : Line2),
        (createTrackDescriptionOfDistances ⟨pts, l⟩ d).1
          = (createTrackDescriptionOfDistances ⟨pts, l'⟩ d).1 :=
  reconstruct_deterministic exampleLibm Scratch.init usedScratch (by decide!) (by decide!)
    timesTwoTracks quarterSpeed

/-! ## The returned deviation against the enumerated candidates -/

namespace ieee

open Double

theorem Double.log2Bits_spec (b n : Nat) (hn : 0 < n) (h : n < 2 ^ 2 ^ b) :
    2 ^ log2Bits b n ≤ n ∧ n < 2 ^ (log2Bits b n + 1) := by
  induction b generalizing n with
  | zero =>
    have : n = 1 := by
      simp at h
      omega
    subst this
    simp [log2Bits]
  | succ b ih =>
    unfold log2Bits
    split_ifs with h2
    · have hpos : 0 < 2 ^ 2 ^ b := by positivity
      have hm : 0 < n / 2 ^ 2 ^ b := Nat.div_pos h2 hpos
      have hlt : n / 2 ^ 2 ^ b < 2 ^ 2 ^ b := by
        apply Nat.div_lt_of_lt_mul
        rw [← pow_add, ← two_mul, ← pow_succ']
        exact h
      obtain ⟨h3, h4⟩ := ih (n / 2 ^ 2 ^ b) hm hlt
      constructor
      · rw [pow_add]
        calc 2 ^ 2 ^ b * 2 ^ log2Bits b (n / 2 ^ 2 ^ b)
            ≤ 2 ^ 2 ^ b * (n / 2 ^ 2 ^ b) := Nat.mul_le_mul_left _ h3
          _ ≤ n := Nat.mul_div_le n _
      · rw [add_assoc, pow_add]
        calc n < 2 ^ 2 ^ b * (n / 2 ^ 2 ^ b + 1) := Nat.lt_mul_div_succ n hpos
          _ ≤ 2 ^ 2 ^ b * 2 ^ (log2Bits b (n / 2 ^ 2 ^ b) + 1) := Nat.mul_le_mul_left _ h4
    · exact ih n hn (not_le.mp h2)

theorem Double.bitsNeeded_spec (fuel b n : Nat) (h : n < 2 ^ 2 ^ (b + fuel)) :
    n < 2 ^ 2 ^ bitsNeeded fuel b n := by
  induction fuel generalizing b with
  | zero => simpa [bitsNeeded] using h
  | succ f ih =>
    unfold bitsNeeded
    split_ifs with h2
    · exact h2
    · apply ih
      have : b + 1 + f = b + (f + 1) := by omega
      rw [this]
      exact h

/-- The function `ilog2` is the binary logarithm rounded down. -/
theorem Double.ilog2_spec (n : Nat) (hn : 0 < n) :
    2 ^ ilog2 n ≤ n ∧ n < 2 ^ (ilog2 n + 1) := by
  apply Double.log2Bits_spec _ n hn
  apply Double.bitsNeeded_spec
  rw [zero_add]
  calc n < 2 ^ n := Nat.lt_two_pow n
    _ ≤ 2 ^ 2 ^ n := Nat.pow_le_pow_right (by norm_num) (le_of_lt (Nat.lt_two_pow n))

/-- The rounding function at some landmarks of binary64: the doubles nearest
to `0.1`, `6.2`, `3.6` and `1e-60`; a tie between two doubles goes to the even
one; the largest double and the overflow threshold; the smallest subnormal
number and the underflow to a signed zero. -/
theorem Double.roundQ_landmarks :
    roundQ (1 / 10) = fin (3602879701896397 / 36028797018963968) ∧
      roundQ (31 / 5) = fin (6980579422424269 / 1125899906842624) ∧
      roundQ (18 / 5) = fin (8106479329266893 / 2251799813685248) ∧
      roundQ (1 / 10 ^ 60) = fin (3618502788666131 / 2 ^ 251) ∧
      roundQ (2 ^ 53 + 1) = fin (2 ^ 53) ∧
      roundQ (2 ^ 53 + 3) = fin (2 ^ 53 + 4) ∧
      roundQ (2 ^ 1024 - 2 ^ 971) = fin (2 ^ 1024 - 2 ^ 971) ∧
      roundQ (2 ^ 1024 - 2 ^ 970 - 1) = fin (2 ^ 1024 - 2 ^ 971) ∧
      roundQ (2 ^ 1024 - 2 ^ 970) = posInf ∧
      roundQ (-(2 ^ 1024)) = negInf ∧
      roundQ (1 / 2 ^ 1074) = fin (1 / 2 ^ 1074) ∧
      roundQ (3 / 2 ^ 1075) = fin (2 / 2 ^ 1074) ∧
      roundQ (1 / 2 ^ 1075) = fin 0 ∧
      roundQ (-1 / 2 ^ 1076) = negZero := by
  decide!

/-! ## Doubles: order and sign -/

theorem Double.lt_chain {a b c : Double} (h1 : a.lt b = true) (h2 : b.lt c = true) :
    a.lt c = true := by
  cases a <;> cases b <;> simp [Double.lt, Double.isNan, Double.toRat] at h1 <;>
    cases c <;> simp [Double.lt, Double.isNan, Double.toRat] at h2 ⊢ <;> linarith

theorem Double.lt_irrefl (a : Double) : ¬ a.lt a = true := by
  cases a <;> simp [Double.lt, Double.isNan, Double.toRat]

theorem Double.lt_not_nan {a b : Double} (h : a.lt b = true) : a.isNan = false := by
  cases a <;> simp [Double.lt, Double.isNan] at h ⊢

theorem Double.lt_of_lt_of_not_lt {i a j : Double} (h1 : i.lt a = true) (h2 : j.lt a = false)
    (hj : j.isNan = false) : i.lt j = true := by
  cases i <;> cases a <;> simp [Double.lt, Double.isNan, Double.toRat] at h1 <;>
    cases j <;> simp [Double.lt, Double.isNan, Double.toRat] at h2 hj ⊢ <;> linarith

theorem Double.roundMag_nonneg (n d : Nat) : 0 ≤ roundMag n d := by
  unfold roundMag
  split_ifs <;> positivity

/-- Rounding keeps a non-negative number non-negative. -/
theorem Double.signBit_roundQ {q : ℚ} (hq : 0 ≤ q) : (roundQ q).signBit = false := by
  have hneg : decide (q < 0) = false := by simpa using hq
  have hnl : ¬ q < 0 := not_lt.mpr hq
  unfold roundQ
  rw [hneg, if_neg hnl]
  split_ifs
  · simp [signBit]
  · simp [mkInf, signBit]
  · simp [mkZero, signBit]
  · simpa [signBit] using Double.roundMag_nonneg _ _

/-- A square is never negative: it is a non-negative number, `+inf` or NaN. -/
theorem Double.signBit_mul_self (x : Double) : (x.mul x).signBit = false := by
  cases x with
  | fin q =>
    by_cases hq : q = 0
    · simp [Double.mul, isNan, isInf, isZero, signBit, hq, mkZero]
    · simp only [Double.mul, isNan, isInf, isZero, hq, toRat, Bool.or_self, Bool.and_self,
        Bool.false_eq_true, if_false, decide_False, Bool.and_false, Bool.false_and]
      exact Double.signBit_roundQ (mul_self_nonneg q)
  | negZero => simp [Double.mul, isNan, isInf, isZero, signBit, mkZero]
  | posInf => simp [Double.mul, isNan, isInf, isZero, signBit, mkInf]
  | negInf => simp [Double.mul, isNan, isInf, isZero, signBit, mkInf]
  | nan => simp [Double.mul, isNan, signBit]

/-- A sum of two values that are not negative is not negative. -/
theorem Double.signBit_add {a b : Double} (ha : a.signBit = false) (hb : b.signBit = false) :
    (a.add b).signBit = false := by
  cases a with
  | fin p =>
    cases b with
    | fin q =>
      have hp : 0 ≤ p := by simpa [signBit] using ha
      have hq : 0 ≤ q := by simpa [signBit] using hb
      simp only [Double.add, isNan, isInf, isZero, toRat, Bool.or_self, Bool.and_self,
        Bool.false_eq_true, if_false]
      split_ifs
      · simp [mkZero, signBit, not_lt.mpr hp]
      · exact Double.signBit_roundQ (add_nonneg hp hq)
    | negZero => simp [signBit] at hb
    | posInf => simp [Double.add, isNan, isInf, signBit]
    | negInf => simp [signBit] at hb
    | nan => simp [Double.add, isNan, signBit]
  | negZero => simp [signBit] at ha
  | posInf =>
    cases b with
    | fin q => simp [Double.add, isNan, isInf, signBit]
    | negZero => simp [signBit] at hb
    | posInf => simp [Double.add, isNan, isInf, signBit]
    | negInf => simp [signBit] at hb
    | nan => simp [Double.add, isNan, signBit]
  | negInf => simp [signBit] at ha
  | nan => simp [Double.add, isNan, signBit]

/-- A value that is not negative is not the sentinel `-1`. -/
theorem Double.beq_neg_one_of_signBit {d : Double} (h : d.signBit = false) :
    d.beq (fin (-1)) = false := by
  cases d with
  | fin q =>
    have hq : 0 ≤ q := by simpa [signBit] using h
    simp only [Double.beq, isNan, isInf, toRat, Bool.or_self, Bool.false_eq_true, if_false,
      decide_eq_false_iff_not]
    intro hc
    linarith
  | negZero => simp [signBit] at h
  | posInf => simp [Double.beq, isNan, isInf]
  | negInf => simp [signBit] at h
  | nan => simp [Double.beq, isNan]

/-- A value that is not negative and is below `+inf` is a non-negative number. -/
theorem Double.fin_of_signBit_of_lt_inf {d : Double} (h : d.signBit = false)
    (hlt : d.lt posInf = true) : ∃ q : ℚ, 0 ≤ q ∧ d = fin q := by
  cases d with
  | fin q => exact ⟨q, by simpa [signBit] using h, rfl⟩
  | negZero => simp [signBit] at h
  | posInf => simp [Double.lt, isNan] at hlt
  | negInf => simp [signBit] at h
  | nan => simp [Double.lt, isNan] at hlt

/-! ## Line fitter over doubles -/

theorem foldl_devStep_signBit (line : Line2) (points : Points) (acc : Double)
    (h : acc.signBit = false) : (points.foldl (devStep line) acc).signBit = false := by
  induction points generalizing acc with
  | nil => exact h
  | cons p ps ih =>
    rw [List.foldl_cons]
    exact ih _ (Double.signBit_add h (Double.signBit_mul_self _))

/-- The residual loop never returns a negative value, so never the sentinel. -/
theorem devLoop_signBit (line : Line2) (points : Points) :
    (devLoop line points).signBit = false :=
  foldl_devStep_signBit line points (fin 0) (by simp [signBit])

/-- The outcome of `leastSquares` on its fitting branch. -/
theorem leastSquares_fitted (points : Points) (line : Line2) (hlen : 2 ≤ points.length)
    (hexp : ((!(((Double.ofNat points.length).mul (sums points).sumXX).sub
          ((sums points).sumX.mul (sums points).sumX)).beq (fin 0)) &&
        (roundQ (1 / 10 ^ 60)).lt
          (((Double.ofNat points.length).mul (sums points).sumXX).sub
            ((sums points).sumX.mul (sums points).sumX)).abs) = true) :
    leastSquares points line =
      (devLoop (fitLine points) points, fitLine points) := by
  unfold leastSquares
  rw [if_neg (by omega)]
  simp only []
  rw [if_pos hexp]
  rfl

/-! ## Sign resolver over doubles -/

theorem scratchOk_init_wires : ScratchOk Scratch.init := by
  decide

theorem variantPoints_atWires (d : TrackDistances) (v : Nat) :
    (variantPoints d v).map (fun p => p.x) = wireIdx.map fun i => (mWires i).x := by
  simp [variantPoints, List.map_map, Function.comp_def]

/-- At the four wire positions the sums over x are `224` and `13044`, whatever
the y-coordinates are. -/
theorem sums_atWires (pts : Points)
    (h : pts.map (fun p => p.x) = wireIdx.map fun i => (mWires i).x) :
    pts.length = 4 ∧ (sums pts).sumX = fin 224 ∧ (sums pts).sumXX = fin 13044 := by
  obtain ⟨p0, p1, p2, p3, rfl⟩ := length_eq_four pts (by
    have := congrArg List.length h
    simpa [wireIdx] using this)
  simp only [wireIdx, List.map_cons, List.map_nil, List.cons.injEq, and_true] at h
  obtain ⟨h0, h1, h2, h3⟩ := h
  have e0 : (mWires 0).x = fin 41 := rfl
  have e1 : (mWires 1).x = fin 51 := rfl
  have e2 : (mWires 2).x = fin 61 := rfl
  have e3 : (mWires 3).x = fin 71 := rfl
  rw [e0] at h0
  rw [e1] at h1
  rw [e2] at h2
  rw [e3] at h3
  refine ⟨rfl, ?_, ?_⟩
  · simp only [sums, List.foldl_cons, List.foldl_nil, sumsStep, h0, h1, h2, h3]
    decide!
  · simp only [sums, List.foldl_cons, List.foldl_nil, sumsStep, h0, h1, h2, h3]
    decide!

/-- At the four wire positions the computed denominator of the fit is exactly
`2000`. -/
theorem denominator_atWires (pts : Points)
    (h : pts.map (fun p => p.x) = wireIdx.map fun i => (mWires i).x) :
    ((Double.ofNat pts.length).mul (sums pts).sumXX).sub ((sums pts).sumX.mul (sums pts).sumX)
      = fin 2000 := by
  obtain ⟨hl, hx, hxx⟩ := sums_atWires pts h
  rw [hl, hx, hxx]
  decide!

/-- At the four wire positions `leastSquares` always takes the fitting branch:
it returns the residual sum of the line it stores, whatever `line` held. -/
theorem leastSquares_atWires (pts : Points) (line : Line2)
    (h : pts.map (fun p => p.x) = wireIdx.map fun i => (mWires i).x) :
    leastSquares pts line = (devLoop (fitLine pts) pts, fitLine pts) := by
  have hl := (sums_atWires pts h).1
  refine leastSquares_fitted pts line (by omega) ?_
  rw [denominator_atWires pts h]
  decide!

theorem leastSquares_atWires_signBit (pts : Points) (line : Line2)
    (h : pts.map (fun p => p.x) = wireIdx.map fun i => (mWires i).x) :
    (leastSquares pts line).1.signBit = false := by
  rw [leastSquares_atWires pts line h]
  exact devLoop_signBit _ _

theorem leastSquares_atWires_ne_sentinel (pts : Points) (line : Line2)
    (h : pts.map (fun p => p.x) = wireIdx.map fun i => (mWires i).x) :
    (leastSquares pts line).1.beq (fin (-1)) = false :=
  Double.beq_neg_one_of_signBit (leastSquares_atWires_signBit pts line h)

/-- On a buffer at the wire positions the inner loop writes variant `i`. -/
theorem writeSigns_variant (d : TrackDistances) (i : Nat) (pts : Points)
    (h : pts.map (fun p => p.x) = wireIdx.map fun i => (mWires i).x) :
    writeSigns d i pts = variantPoints d i := by
  obtain ⟨p0, p1, p2, p3, rfl⟩ := length_eq_four pts (by
    have := congrArg List.length h
    simpa [wireIdx] using this)
  simp only [wireIdx, List.map_cons, List.map_nil, List.cons.injEq, and_true] at h
  obtain ⟨h0, h1, h2, h3⟩ := h
  simp only [writeSigns, variantPoints, wireIdx, List.foldl_cons, List.foldl_nil, List.map_cons,
    List.map_nil, setY, and_shiftLeft_ne_zero, Fin.val_zero, Fin.val_one, h0, h1, h2, h3]

theorem track_line_mk (l : Line2) (p : Points) (d : Double) (t : TrackTimes) :
    (TrackDescription.mk l p d t).line = l := rfl

theorem track_points_mk (l : Line2) (p : Points) (d : Double) (t : TrackTimes) :
    (TrackDescription.mk l p d t).points = p := rfl

theorem track_deviation_mk (l : Line2) (p : Points) (d : Double) (t : TrackTimes) :
    (TrackDescription.mk l p d t).deviation = d := rfl

/-- A fold that replaces the running best by candidate `i` whenever the key of
`i` compares below the deviation of the running best ends either unchanged (no
key was below the start) or at a candidate `i` whose key is below the key of
every earlier candidate that is not a NaN, and that no later key is below. -/
theorem foldl_first_least {ι σ : Type} (dev : σ → Double) (key : ι → Double) (upd : σ → ι → σ)
    (hupd : ∀ st i, dev (upd st i) = key i) (l : List ι) (st0 : σ) :
    (l.foldl (fun st i => if (key i).lt (dev st) = true then upd st i else st) st0 = st0 ∧
        ∀ j ∈ l, (key j).lt (dev st0) = false) ∨
      ∃ l1 i l2 st, l = l1 ++ i :: l2 ∧
        l.foldl (fun st i => if (key i).lt (dev st) = true then upd st i else st) st0
          = upd st i ∧
        (key i).lt (dev st0) = true ∧
        (∀ j ∈ l1, (key j).isNan = false → (key i).lt (key j) = true) ∧
        ∀ j ∈ l2, (key j).lt (key i) = false := by
  induction l generalizing st0 with
  | nil => left; simp
  | cons a l ih =>
    rw [List.foldl_cons]
    by_cases ha : (key a).lt (dev st0) = true
    · rw [if_pos ha]
      right
      rcases ih (upd st0 a) with ⟨heq, hall⟩ | ⟨l1, i, l2, st, hl, heq, hlt, h1, h2⟩
      · refine ⟨[], a, l, st0, rfl, heq, ha, by simp, fun j hj => ?_⟩
        have := hall j hj
        rwa [hupd] at this
      · rw [hupd] at hlt
        refine ⟨a :: l1, i, l2, st, by rw [hl]; rfl, heq, Double.lt_chain hlt ha, ?_, h2⟩
        intro j hj hn
        rcases List.mem_cons.mp hj with rfl | hj
        · exact hlt
        · exact h1 j hj hn
    · rw [if_neg ha]
      have ha' : (key a).lt (dev st0) = false := by simpa using ha
      rcases ih st0 with ⟨heq, hall⟩ | ⟨l1, i, l2, st, hl, heq, hlt, h1, h2⟩
      · left
        refine ⟨heq, fun j hj => ?_⟩
        rcases List.mem_cons.mp hj with rfl | hj
        · exact ha'
        · exact hall j hj
      · right
        refine ⟨a :: l1, i, l2, st, by rw [hl]; rfl, heq, hlt, ?_, h2⟩
        intro j hj hn
        rcases List.mem_cons.mp hj with rfl | hj
        · exact Double.lt_of_lt_of_not_lt hlt ha' hn
        · exact h1 j hj hn

/-- One iteration of the sign resolver on a scratch buffer at the wire
positions: the scratch contents do not influence the outcome. -/
theorem signStep_atWires (d : TrackDistances) (best : TrackDescription) (s : Scratch) (i : Nat)
    (l0 : Line2) (hs : ScratchOk s) :
    signStep d (best, s) i =
      (if (leastSquares (variantPoints d i) l0).1.lt best.deviation = true then
          { best with
            deviation := (leastSquares (variantPoints d i) l0).1
            line := (leastSquares (variantPoints d i) l0).2
            points := variantPoints d i }
        else best,
        ⟨variantPoints d i, (leastSquares (variantPoints d i) l0).2⟩) := by
  have hx := variantPoints_atWires d i
  have hne := leastSquares_atWires_ne_sentinel (variantPoints d i) l0 hx
  have hind : leastSquares (variantPoints d i) s.tempLine = leastSquares (variantPoints d i) l0 :=
    (leastSquares_atWires _ _ hx).trans (leastSquares_atWires _ _ hx).symm
  unfold signStep
  simp only [writeSigns_variant d i s.tempPoints hs, hind, hne, Bool.not_false, Bool.true_and]
  split_ifs <;> rfl

/-- The sign resolver as a fold that does not mention the scratch state. -/
theorem foldl_signStep_atWires (d : TrackDistances) (l0 : Line2) (l : List Nat)
    (best : TrackDescription) (s : Scratch) (hs : ScratchOk s) :
    (l.foldl (signStep d) (best, s)).1 =
        l.foldl (fun st i =>
          if (leastSquares (variantPoints d i) l0).1.lt st.deviation = true then
            { st with
              deviation := (leastSquares (variantPoints d i) l0).1
              line := (leastSquares (variantPoints d i) l0).2
              points := variantPoints d i }
          else st) best ∧
      ScratchOk (l.foldl (signStep d) (best, s)).2 := by
  induction l generalizing best s with
  | nil => exact ⟨rfl, hs⟩
  | cons a l ih =>
    rw [List.foldl_cons, List.foldl_cons, signStep_atWires d best s a l0 hs]
    exact ih _ _ (variantPoints_atWires d a)

/-- The sign resolver over doubles, on a scratch buffer at the wire positions:
either no variant has a computed deviation below `+inf` and the result is the
empty track with deviation `+inf`, or the result is the variant `v` whose
computed deviation is below `+inf`, below that of every earlier variant whose
deviation is not a NaN, and not above that of any variant. -/
theorem resolver_outcome (s : Scratch) (hs : ScratchOk s) (d : TrackDistances) (l0 : Line2) :
    ScratchOk (createTrackDescriptionOfDistances s d).2 ∧
    (((createTrackDescriptionOfDistances s d).1
          = { TrackDescription.empty with deviation := posInf } ∧
        ∀ v, v < 16 → (leastSquares (variantPoints d v) l0).1.lt posInf = false) ∨
      ∃ v, v < 16 ∧
        (createTrackDescriptionOfDistances s d).1 =
          ⟨(leastSquares (variantPoints d v) l0).2, variantPoints d v,
            (leastSquares (variantPoints d v) l0).1, TrackDescription.empty.times⟩ ∧
        (leastSquares (variantPoints d v) l0).1.lt posInf = true ∧
        (∀ v', v' < 16 →
          (leastSquares (variantPoints d v') l0).1.lt (leastSquares (variantPoints d v) l0).1
            = false) ∧
        ∀ v', v' < v → (leastSquares (variantPoints d v') l0).1.isNan = false →
          (leastSquares (variantPoints d v) l0).1.lt (leastSquares (variantPoints d v') l0).1
            = true) := by
  unfold createTrackDescriptionOfDistances
  obtain ⟨hfold, hok⟩ := foldl_signStep_atWires d l0 (List.range (2 ^ 4))
    { TrackDescription.empty with deviation := posInf } s hs
  refine ⟨hok, ?_⟩
  simp only []
  rw [hfold]
  have htimes : ∀ (l : List Nat) (st : TrackDescription),
      (l.foldl (fun st i =>
          if (leastSquares (variantPoints d i) l0).1.lt st.deviation = true then
            { st with
              deviation := (leastSquares (variantPoints d i) l0).1
              line := (leastSquares (variantPoints d i) l0).2
              points := variantPoints d i }
          else st) st).times = st.times := by
    intro l
    induction l with
    | nil => intro st; rfl
    | cons a l ih =>
      intro st
      rw [List.foldl_cons, ih]
      split_ifs <;> rfl
  rcases foldl_first_least (fun st : TrackDescription => st.deviation)
      (fun i => (leastSquares (variantPoints d i) l0).1)
      (fun st i => { st with
              deviation := (leastSquares (variantPoints d i) l0).1
              line := (leastSquares (variantPoints d i) l0).2
              points := variantPoints d i })
      (fun _ _ => track_deviation_mk _ _ _ _) (List.range (2 ^ 4))
      { TrackDescription.empty with deviation := posInf }
    with ⟨heq, hall⟩ | ⟨l1, v, l2, st, hl, heq, hlt, h1, h2⟩
  · left
    exact ⟨heq, fun v hv => hall v (List.mem_range.mpr hv)⟩
  · right
    obtain ⟨hv, hbefore⟩ := range_split_lt _ l1 l2 v hl
    refine ⟨v, hv, ?_, hlt, ?_, ?_⟩
    · have ht := htimes (List.range (2 ^ 4)) { TrackDescription.empty with deviation := posInf }
      rw [heq] at ht ⊢
      simp only [] at ht ⊢
      rw [ht]
    · intro v' hv'
      have hm : v' ∈ List.range (2 ^ 4) := List.mem_range.mpr hv'
      rw [hl] at hm
      rcases List.mem_append.mp hm with hm | hm
      · by_cases hn : (leastSquares (variantPoints d v') l0).1.isNan = false
        · have h := h1 v' hm hn
          cases hc : (leastSquares (variantPoints d v') l0).1.lt
              (leastSquares (variantPoints d v) l0).1 with
          | false => rfl
          | true =>
            have := Double.lt_chain h hc
            exact absurd this (Double.lt_irrefl _)
        · cases hc : (leastSquares (variantPoints d v') l0).1.lt
              (leastSquares (variantPoints d v) l0).1 with
          | false => rfl
          | true => exact absurd (Double.lt_not_nan hc) hn
      · rcases List.mem_cons.mp hm with rfl | hm
        · cases hc : (leastSquares (variantPoints d v') l0).1.lt
              (leastSquares (variantPoints d v') l0).1 with
          | false => rfl
          | true => exact absurd hc (Double.lt_irrefl _)
        · exact h2 v' hm
    · intro v' hv' hn
      exact h1 v' (hbefore v' hv') hn

/-- On a scratch buffer at the wire positions the sign resolver returns what it
returns on the initial scratch state. -/
theorem resolver_scratch_irrelevant (s : Scratch) (hs : ScratchOk s) (d : TrackDistances) :
    (createTrackDescriptionOfDistances s d).1 = (createTrackDescriptionOfDistances Scratch.init d).1 ∧
      ScratchOk (createTrackDescriptionOfDistances s d).2 := by
  have h1 := foldl_signStep_atWires d ⟨fin 0, fin 0⟩ (List.range (2 ^ 4))
    { TrackDescription.empty with deviation := posInf } s hs
  have h2 := foldl_signStep_atWires d ⟨fin 0, fin 0⟩ (List.range (2 ^ 4))
    { TrackDescription.empty with deviation := posInf } Scratch.init scratchOk_init_wires
  exact ⟨h1.1.trans h2.1.symm, h1.2⟩

/-- The deviation the sign resolver returns is `+inf` (no variant) or a
non-negative number; its points are at the wire positions unless there are
none. -/
theorem resolver_fields (s : Scratch) (hs : ScratchOk s) (d : TrackDistances) :
    (createTrackDescriptionOfDistances s d).1.deviation.signBit = false ∧
      (createTrackDescriptionOfDistances s d).1.deviation.isNan = false ∧
      ((createTrackDescriptionOfDistances s d).1.deviation.lt posInf = true →
        (createTrackDescriptionOfDistances s d).1.points.map (fun p => p.x)
          = wireIdx.map fun i => (mWires i).x) := by
  rcases (resolver_outcome s hs d ⟨fin 0, fin 0⟩).2 with ⟨heq, _⟩ | ⟨v, _, heq, hlt, _, _⟩
  · have hd : (createTrackDescriptionOfDistances s d).1.deviation = posInf :=
      (congrArg TrackDescription.deviation heq).trans (track_deviation_mk _ _ _ _)
    rw [hd]
    exact ⟨rfl, rfl, fun h => absurd h (by simp [Double.lt, Double.isNan])⟩
  · have hd : (createTrackDescriptionOfDistances s d).1.deviation
        = (leastSquares (variantPoints d v) ⟨fin 0, fin 0⟩).1 :=
      (congrArg TrackDescription.deviation heq).trans (track_deviation_mk _ _ _ _)
    have hp : (createTrackDescriptionOfDistances s d).1.points = variantPoints d v :=
      (congrArg TrackDescription.points heq).trans (track_points_mk _ _ _ _)
    rw [hd, hp]
    exact ⟨leastSquares_atWires_signBit _ _ (variantPoints_atWires d v), Double.lt_not_nan hlt,
      fun _ => variantPoints_atWires d v⟩

/-! ## Distance converter and hit selector over doubles -/

theorem foldl_wireDistances_length (params : WireParameters) (times : List Nat)
    (acc : List Double) :
    (times.foldl
        (fun distances msr =>
          if msr > params.offset then
            distances ++ [(Double.ofNat (u32sub msr params.offset)).mul params.speed]
          else distances)
        acc).length ≤ acc.length + times.length := by
  induction times generalizing acc with
  | nil => simp
  | cons t ts ih =>
    rw [List.foldl_cons]
    refine le_trans (ih _) ?_
    split_ifs
    · simp only [List.length_append, List.length_cons, List.length_nil]
      omega
    · simp only [List.length_cons]
      omega

theorem distances_length_le (eventTimes : ChamberTimes) (chamDesc : ChamberParameters)
    (w : Fin 4) : (getDistances eventTimes chamDesc w).length ≤ (eventTimes w).length := by
  unfold getDistances wireDistances
  simpa using foldl_wireDistances_length (chamDesc w) (eventTimes w) []

theorem trackDistances_in_range (ed : ChamberDistances) (ind : Indecies)
    (h : ∀ w, ind w < (ed w).length) : createTrackDistances ed ind = some (distancesAt ed ind) := by
  unfold createTrackDistances
  rw [atMod_eq _ _ (fin 0) (h 0), atMod_eq _ _ (fin 0) (h 1), atMod_eq _ _ (fin 0) (h 2),
    atMod_eq _ _ (fin 0) (h 3)]
  simp only [Option.bind_eq_bind, Option.some_bind, Option.pure_def, Option.some.injEq]
  funext w
  fin_cases w <;> rfl

/-! ## Reconstruction orchestrator over doubles -/

/-- The four nested loops visit the index combinations in order. -/
theorem search_visits_combinations (eventTimes : ChamberTimes) (ed : ChamberDistances)
    (st : TrackDescription × Scratch) :
    search eventTimes ed st =
      (combinations fun w => (ed w).length).foldlM (searchBody eventTimes ed) st := by
  unfold search combinations
  rw [foldlM_flatMap]
  congr 1
  funext st i0
  rw [foldlM_flatMap]
  congr 1
  funext st i1
  rw [foldlM_flatMap]
  congr 1
  funext st i2
  rw [foldlM_map]

theorem candidate_unfold (eventTimes : ChamberTimes) (ed : ChamberDistances) (ind : Indecies) :
    candidate eventTimes ed ind =
      withTimes (createTrackDescriptionOfDistances Scratch.init (distancesAt ed ind)).1
        (timesAt eventTimes ind) := rfl

theorem withTimes_keeps_deviation (t : TrackDescription) (ts : TrackTimes) :
    (withTimes t ts).deviation = t.deviation := rfl

theorem withTimes_keeps_points (t : TrackDescription) (ts : TrackTimes) :
    (withTimes t ts).points = t.points := rfl

/-- The pre-correction deviation of a candidate is `+inf` or a non-negative
number, never the sentinel and never a NaN. -/
theorem candidate_fields (eventTimes : ChamberTimes) (ed : ChamberDistances) (ind : Indecies) :
    (candidate eventTimes ed ind).deviation.signBit = false ∧
      (candidate eventTimes ed ind).deviation.isNan = false ∧
      ((candidate eventTimes ed ind).deviation.lt posInf = true →
        (candidate eventTimes ed ind).points.map (fun p => p.x)
          = wireIdx.map fun i => (mWires i).x) := by
  rw [candidate_unfold, withTimes_keeps_deviation, withTimes_keeps_points]
  exact resolver_fields Scratch.init scratchOk_init_wires (distancesAt ed ind)

theorem keepBest_in_range (eventTimes : ChamberTimes) (ind : Indecies) (best : TrackDescription)
    (r : TrackDescription × Scratch) (hne : r.1.deviation.beq (fin (-1)) = false)
    (ht : ∀ w, ind w < (eventTimes w).length) :
    keepBest eventTimes ind best r =
      some (if r.1.deviation.lt best.deviation = true then withTimes r.1 (timesAt eventTimes ind)
        else best, r.2) := by
  unfold keepBest
  simp only [hne, createTrackTimes_eq eventTimes ind ht, Option.bind_eq_bind, Option.some_bind,
    Option.pure_def, Bool.not_false, Bool.true_and]
  split_ifs <;> rfl

/-- The loop body on an index combination within range. -/
theorem searchBody_in_range (eventTimes : ChamberTimes) (ed : ChamberDistances)
    (best : TrackDescription) (s : Scratch) (hs : ScratchOk s) (ind : Indecies)
    (hd : ∀ w, ind w < (ed w).length) (ht : ∀ w, ind w < (eventTimes w).length) :
    ∃ s', ScratchOk s' ∧
      searchBody eventTimes ed (best, s) ind =
        some (if (candidate eventTimes ed ind).deviation.lt best.deviation = true
              then candidate eventTimes ed ind else best, s') := by
  obtain ⟨h1, h2⟩ := resolver_scratch_irrelevant s hs (distancesAt ed ind)
  obtain ⟨h3, _, _⟩ := resolver_fields s hs (distancesAt ed ind)
  refine ⟨(createTrackDescriptionOfDistances s (distancesAt ed ind)).2, h2, ?_⟩
  unfold searchBody
  rw [trackDistances_in_range ed ind hd]
  simp only [Option.bind_eq_bind, Option.some_bind]
  rw [keepBest_in_range eventTimes ind best _ (Double.beq_neg_one_of_signBit h3) ht,
    candidate_unfold, withTimes_keeps_deviation, h1]

theorem foldlM_searchBody_in_range (eventTimes : ChamberTimes) (ed : ChamberDistances)
    (l : List Indecies) (hd : ∀ ind ∈ l, ∀ w, ind w < (ed w).length)
    (ht : ∀ ind ∈ l, ∀ w, ind w < (eventTimes w).length)
    (best : TrackDescription) (s : Scratch) (hs : ScratchOk s) :
    ∃ s', ScratchOk s' ∧
      l.foldlM (searchBody eventTimes ed) (best, s) =
        some (l.foldl (fun b ind =>
          if (candidate eventTimes ed ind).deviation.lt b.deviation = true
          then candidate eventTimes ed ind else b) best, s') := by
  induction l generalizing best s with
  | nil => exact ⟨s, hs, rfl⟩
  | cons a l ih =>
    obtain ⟨s1, hs1, h1⟩ := searchBody_in_range eventTimes ed best s hs a
      (hd a (List.mem_cons_self _ _)) (ht a (List.mem_cons_self _ _))
    rw [List.foldlM_cons, h1, List.foldl_cons]
    exact ih (fun ind hi => hd ind (List.mem_cons_of_mem _ hi))
      (fun ind hi => ht ind (List.mem_cons_of_mem _ hi)) _ s1 hs1

theorem beq_posInf_of_lt {d : Double} (h : d.lt posInf = true) : d.beq posInf = false := by
  cases d <;> simp [Double.lt, Double.beq, Double.isNan, Double.isInf] at h ⊢

/-- The reconstruction over doubles on an eligible event: either no index
combination has a candidate with a deviation below `+inf` and the
reconstruction throws, or the search ends at the first index combination whose
candidate has the least deviation and the result is what the systematic
corrector makes of that one candidate. -/
theorem reconstruct_outcome (m : Libm) (s : Scratch) (hs : ScratchOk s)
    (eventTimes : ChamberTimes) (chamDesc : ChamberParameters)
    (hdepth : getDepth (getDistances eventTimes chamDesc) = 1) :
    ((∀ ind ∈ combinations (fun w => (getDistances eventTimes chamDesc w).length),
          (candidate eventTimes (getDistances eventTimes chamDesc) ind).deviation.lt posInf
            = false) ∧
        createTrackDescription m s eventTimes chamDesc = none) ∨
      ∃ l1 ind l2,
        combinations (fun w => (getDistances eventTimes chamDesc w).length) = l1 ++ ind :: l2 ∧
        (candidate eventTimes (getDistances eventTimes chamDesc) ind).deviation.lt posInf = true ∧
        (∀ j ∈ l1,
          (candidate eventTimes (getDistances eventTimes chamDesc) ind).deviation.lt
            (candidate eventTimes (getDistances eventTimes chamDesc) j).deviation = true) ∧
        (∀ j ∈ l2,
          (candidate eventTimes (getDistances eventTimes chamDesc) j).deviation.lt
            (candidate eventTimes (getDistances eventTimes chamDesc) ind).deviation = false) ∧
        createTrackDescription m s eventTimes chamDesc =
          systemError m (candidate eventTimes (getDistances eventTimes chamDesc) ind) := by
  have hd : ∀ ind ∈ combinations (fun w => (getDistances eventTimes chamDesc w).length),
      ∀ w, ind w < (getDistances eventTimes chamDesc w).length :=
    fun ind hi => (mem_combinations _ ind).mp hi
  have ht : ∀ ind ∈ combinations (fun w => (getDistances eventTimes chamDesc w).length),
      ∀ w, ind w < (eventTimes w).length :=
    fun ind hi w => lt_of_lt_of_le (hd ind hi w) (distances_length_le eventTimes chamDesc w)
  obtain ⟨s', _, hfold⟩ := foldlM_searchBody_in_range eventTimes
    (getDistances eventTimes chamDesc) _ hd ht
    { TrackDescription.empty with deviation := posInf } s hs
  have hcreate : createTrackDescription m s eventTimes chamDesc =
      match search eventTimes (getDistances eventTimes chamDesc)
          ({ TrackDescription.empty with deviation := posInf }, s) with
      | none => none
      | some (trackDesc, _) =>
        if (!trackDesc.deviation.beq posInf) = true then systemError m trackDesc else none := by
    unfold createTrackDescription
    simp only [hdepth, if_true]
  rw [hcreate, search_visits_combinations, hfold]
  rcases foldl_first_least (fun st : TrackDescription => st.deviation)
      (fun ind => (candidate eventTimes (getDistances eventTimes chamDesc) ind).deviation)
      (fun _ ind => candidate eventTimes (getDistances eventTimes chamDesc) ind)
      (fun _ _ => rfl)
      (combinations fun w => (getDistances eventTimes chamDesc w).length)
      { TrackDescription.empty with deviation := posInf }
    with ⟨heq, hall⟩ | ⟨l1, ind, l2, _, hl, heq, hlt, h1, h2⟩
  · left
    refine ⟨hall, ?_⟩
    simp only []
    rw [heq]
    rfl
  · right
    refine ⟨l1, ind, l2, hl, hlt, fun j hj => h1 j hj (candidate_fields _ _ j).2.1, h2, ?_⟩
    simp only []
    rw [heq, beq_posInf_of_lt hlt]
    rfl

/-- The reconstruction fails on an event that is not eligible. -/
theorem reconstruct_ineligible (m : Libm) (s : Scratch) (eventTimes : ChamberTimes)
    (chamDesc : ChamberParameters) (hdepth : getDepth (getDistances eventTimes chamDesc) ≠ 1) :
    createTrackDescription m s eventTimes chamDesc = none := by
  unfold createTrackDescription
  simp only [hdepth, if_false]

/-! ## Systematic corrector over doubles -/

theorem setY_keeps_x (pts : Points) (i : Nat) (y : Double) :
    (setY pts i y).map (fun p => p.x) = pts.map fun p => p.x := by
  induction pts generalizing i with
  | nil => rfl
  | cons p ps ih =>
    cases i with
    | zero => rfl
    | succ i => simp only [setY, List.map_cons, ih]

theorem systemErrorStep_keeps (m : Libm) (t t' : TrackDescription) (i : Nat)
    (h : systemErrorStep m t i = some t') :
    t'.points.map (fun p => p.x) = t.points.map (fun p => p.x) ∧ t'.line = t.line ∧
      t'.times = t.times := by
  unfold systemErrorStep at h
  simp only [] at h
  split_ifs at h <;> (cases h; exact ⟨setY_keeps_x _ _ _, rfl, rfl⟩)

theorem foldlM_systemErrorStep_keeps (m : Libm) (l : List Nat) (t t' : TrackDescription)
    (h : l.foldlM (systemErrorStep m) t = some t') :
    t'.points.map (fun p => p.x) = t.points.map (fun p => p.x) ∧ t'.line = t.line ∧
      t'.times = t.times := by
  induction l generalizing t with
  | nil =>
    simp only [List.foldlM_nil, Option.pure_def, Option.some.injEq] at h
    subst h
    exact ⟨rfl, rfl, rfl⟩
  | cons a l ih =>
    rw [List.foldlM_cons] at h
    cases hstep : systemErrorStep m t a with
    | none => rw [hstep] at h; cases h
    | some t1 =>
      rw [hstep] at h
      obtain ⟨h1, h2, h3⟩ := systemErrorStep_keeps m t t1 a hstep
      obtain ⟨h4, h5, h6⟩ := ih t1 h
      exact ⟨h4.trans h1, h5.trans h2, h6.trans h3⟩

/-- An accepted track keeps its x-coordinates and its times; its deviation and
line are those of the re-fit of its corrected points. -/
theorem systemError_accepted (m : Libm) (t t' : TrackDescription)
    (h : systemError m t = some t') :
    t'.points.map (fun p => p.x) = t.points.map (fun p => p.x) ∧ t'.times = t.times ∧
      t'.deviation = (leastSquares t'.points t.line).1 ∧
      t'.line = (leastSquares t'.points t.line).2 := by
  unfold systemError at h
  obtain ⟨a, ha, rfl⟩ := Option.map_eq_some'.mp h
  obtain ⟨h1, h2, h3⟩ := foldlM_systemErrorStep_keeps m _ t a ha
  refine ⟨h1, h3, ?_, ?_⟩
  · rw [← h2]
  · rw [← h2]

/-- One iteration of the corrector on a point whose y-coordinate is a zero or
a NaN: the track is rejected. -/
theorem systemErrorStep_rejects (m : Libm) (t : TrackDescription) (i : Nat)
    (hy : sign (getY t.points i) = 0) : systemErrorStep m t i = none := by
  unfold systemErrorStep
  simp [hy]

/-- C7, counterexample. With four distances of `2 ^ 1023` the sums of the fit
overflow: no variant has a computed deviation below `+inf`, and the sign
resolver returns no variant at all (no points, deviation `+inf`). With four
distances of `1` it returns variant 12, although variant 5 has the same
deviation `1 / 5` in exact arithmetic: the two computed deviations differ in
the last bits, and the one of variant 12 is the smaller. -/
theorem resolver_returns_no_variant_on_overflow :
    ((createTrackDescriptionOfDistances Scratch.init hugeDistances).1.points = [] ∧
        (createTrackDescriptionOfDistances Scratch.init hugeDistances).1.deviation = posInf) ∧
      (createTrackDescriptionOfDistances Scratch.init unitDistances).1.points
        = variantPoints unitDistances 12 ∧
      (trek.leastSquares (trek.variantPoints ![1, 1, 1, 1] 5) ⟨0, 0⟩).1 = 1 / 5 ∧
      (trek.leastSquares (trek.variantPoints ![1, 1, 1, 1] 12) ⟨0, 0⟩).1 = 1 / 5 := by
  decide!

/-- C7, amended. For every four distances the sign resolver, started on a
scratch buffer that holds the wire positions, fits the 16 point sets
`variantPoints d v` in double arithmetic; none of the fits returns the sentinel.
If no variant has a computed deviation below `+inf` (overflow, NaN), it returns
no variant: no points and the deviation `+inf`. Otherwise it returns the
points, the fitted line and the computed deviation of a variant `v` whose
computed deviation is below `+inf`, not above the computed deviation of any
variant, and strictly below that of every lower-numbered variant whose
deviation is not a NaN, so that equal computed deviations go to the lowest
`v`. -/
theorem resolver_first_least_computed (s : Scratch) (hs : ScratchOk s) (d : TrackDistances)
    (l0 : Line2) :
    (∀ v, v < 16 → (leastSquares (variantPoints d v) l0).1.beq (fin (-1)) = false) ∧
      (((∀ v, v < 16 → (leastSquares (variantPoints d v) l0).1.lt posInf = false) ∧
          (createTrackDescriptionOfDistances s d).1.points = [] ∧
          (createTrackDescriptionOfDistances s d).1.deviation = posInf) ∨
        ∃ v, v < 16 ∧
          (leastSquares (variantPoints d v) l0).1.lt posInf = true ∧
          (createTrackDescriptionOfDistances s d).1.points = variantPoints d v ∧
          (createTrackDescriptionOfDistances s d).1.line
            = (leastSquares (variantPoints d v) l0).2 ∧
          (createTrackDescriptionOfDistances s d).1.deviation
            = (leastSquares (variantPoints d v) l0).1 ∧
          (∀ v', v' < 16 →
            (leastSquares (variantPoints d v') l0).1.lt (leastSquares (variantPoints d v) l0).1
              = false) ∧
          ∀ v', v' < v → (leastSquares (variantPoints d v') l0).1.isNan = false →
            (leastSquares (variantPoints d v) l0).1.lt (leastSquares (variantPoints d v') l0).1
              = true) := by
  refine ⟨fun v _ => leastSquares_atWires_ne_sentinel _ l0 (variantPoints_atWires d v), ?_⟩
  rcases (resolver_outcome s hs d l0).2 with ⟨heq, hall⟩ | ⟨v, hv, heq, hlt, hmin, hfirst⟩
  · left
    exact ⟨hall, (congrArg TrackDescription.points heq).trans (track_points_mk _ _ _ _),
      (congrArg TrackDescription.deviation heq).trans (track_deviation_mk _ _ _ _)⟩
  · right
    exact ⟨v, hv, hlt, (congrArg TrackDescription.points heq).trans (track_points_mk _ _ _ _),
      (congrArg TrackDescription.line heq).trans (track_line_mk _ _ _ _),
      (congrArg TrackDescription.deviation heq).trans (track_deviation_mk _ _ _ _), hmin, hfirst⟩

theorem resolver_first_least_computed_witness :
    (∀ v, v < 16 →
        (leastSquares (variantPoints unitDistances v) ⟨fin 0, fin 0⟩).1.beq (fin (-1)) = false) ∧
      (((∀ v, v < 16 →
            (leastSquares (variantPoints unitDistances v) ⟨fin 0, fin 0⟩).1.lt posInf = false) ∧
          (createTrackDescriptionOfDistances Scratch.init unitDistances).1.points = [] ∧
          (createTrackDescriptionOfDistances Scratch.init unitDistances).1.deviation = posInf) ∨
        ∃ v, v < 16 ∧
          (leastSquares (variantPoints unitDistances v) ⟨fin 0, fin 0⟩).1.lt posInf = true ∧
          (createTrackDescriptionOfDistances Scratch.init unitDistances).1.points
            = variantPoints unitDistances v ∧
          (createTrackDescriptionOfDistances Scratch.init unitDistances).1.line
            = (leastSquares (variantPoints unitDistances v) ⟨fin 0, fin 0⟩).2 ∧
          (createTrackDescriptionOfDistances Scratch.init unitDistances).1.deviation
            = (leastSquares (variantPoints unitDistances v) ⟨fin 0, fin 0⟩).1 ∧
          (∀ v', v' < 16 →
            (leastSquares (variantPoints unitDistances v') ⟨fin 0, fin 0⟩).1.lt
              (leastSquares (variantPoints unitDistances v) ⟨fin 0, fin 0⟩).1 = false) ∧
          ∀ v', v' < v →
            (leastSquares (variantPoints unitDistances v') ⟨fin 0, fin 0⟩).1.isNan = false →
            (leastSquares (variantPoints unitDistances v) ⟨fin 0, fin 0⟩).1.lt
              (leastSquares (variantPoints unitDistances v') ⟨fin 0, fin 0⟩).1 = true) :=
  resolver_first_least_computed Scratch.init (by decide) unitDistances ⟨fin 0, fin 0⟩

/-! ## Fittability at the wire positions, over doubles -/

/-- C19, counterexample. With the distances `2 ^ 1023, 1, 1, 1` the products
with the wire positions overflow and no computed deviation is a number: the
sign resolver yields no candidate with a finite deviation, its result has no
points and the deviation `+inf`. -/
theorem resolver_yields_no_candidate :
    (createTrackDescriptionOfDistances Scratch.init overflowDistances).1.points = [] ∧
      (createTrackDescriptionOfDistances Scratch.init overflowDistances).1.deviation = posInf ∧
      (createTrackDescriptionOfDistances Scratch.init overflowDistances).1.deviation.lt posInf
        = false := by
  decide!

/-- C19, amended. For four points at the wire positions `41, 51, 61, 71`,
whatever their y-coordinates, the computed least-squares denominator
`4 * sumXX - sumX * sumX` is exactly `2000` and `leastSquares` does not return
the sentinel. Hence all 16 sign variants of any four distances are fitted, and
the re-fit of the systematic corrector on a track at the wire positions does not
store the sentinel. The sign resolver yields a candidate with a finite
non-negative deviation exactly when some variant has a computed deviation below
`+inf`; when none has (overflow, NaN) it yields no candidate, the result has no
points and the deviation `+inf`. -/
theorem wires_fitted_and_finite_unless_overflow :
    (∀ pts : Points, pts.map (fun p => p.x) = wireIdx.map (fun i => (mWires i).x) →
        ((Double.ofNat pts.length).mul (sums pts).sumXX).sub
            ((sums pts).sumX.mul (sums pts).sumX) = fin 2000 ∧
        ∀ line, (leastSquares pts line).1.beq (fin (-1)) = false) ∧
      (∀ (d : TrackDistances) (v : Nat) (line : Line2),
        (leastSquares (variantPoints d v) line).1.beq (fin (-1)) = false) ∧
      (∀ s : Scratch, ScratchOk s → ∀ d : TrackDistances,
        ((∃ v, v < 16 ∧ (leastSquares (variantPoints d v) ⟨fin 0, fin 0⟩).1.lt posInf = true) →
          ∃ q : ℚ, 0 ≤ q ∧ (createTrackDescriptionOfDistances s d).1.deviation = fin q) ∧
        ((∀ v, v < 16 → (leastSquares (variantPoints d v) ⟨fin 0, fin 0⟩).1.lt posInf = false) →
          (createTrackDescriptionOfDistances s d).1.points = [] ∧
            (createTrackDescriptionOfDistances s d).1.deviation = posInf)) ∧
      ∀ (m : Libm) (t t' : TrackDescription),
        t.points.map (fun p => p.x) = wireIdx.map (fun i => (mWires i).x) →
        systemError m t = some t' → t'.deviation.beq (fin (-1)) = false := by
  refine ⟨fun pts h => ⟨denominator_atWires pts h,
      fun line => leastSquares_atWires_ne_sentinel pts line h⟩,
    fun d v line => leastSquares_atWires_ne_sentinel _ line (variantPoints_atWires d v),
    fun s hs d => ⟨fun hex => ?_, fun hall => ?_⟩, fun m t t' hw h => ?_⟩
  · obtain ⟨v0, hv0, hlt0⟩ := hex
    rcases (resolver_outcome s hs d ⟨fin 0, fin 0⟩).2 with ⟨_, hall⟩ | ⟨v, _, heq, hlt, _, _⟩
    · rw [hall v0 hv0] at hlt0
      cases hlt0
    · have hd : (createTrackDescriptionOfDistances s d).1.deviation
          = (leastSquares (variantPoints d v) ⟨fin 0, fin 0⟩).1 :=
        (congrArg TrackDescription.deviation heq).trans (track_deviation_mk _ _ _ _)
      rw [hd]
      exact Double.fin_of_signBit_of_lt_inf
        (leastSquares_atWires_signBit _ _ (variantPoints_atWires d v)) hlt
  · rcases (resolver_outcome s hs d ⟨fin 0, fin 0⟩).2 with ⟨heq, _⟩ | ⟨v, hv, _, hlt, _, _⟩
    · exact ⟨(congrArg TrackDescription.points heq).trans (track_points_mk _ _ _ _),
        (congrArg TrackDescription.deviation heq).trans (track_deviation_mk _ _ _ _)⟩
    · rw [hall v hv] at hlt
      cases hlt
  · obtain ⟨hx, _, hdev, _⟩ := systemError_accepted m t t' h
    rw [hdev]
    exact leastSquares_atWires_ne_sentinel t'.points t.line (hx.trans hw)

/-! ## Systematic corrector over doubles: the re-fit -/

/-- C2, counterexample. On `timesOnCenterline` (speed `0.25`, offset `0`) the
event is eligible and has the two index combinations `(0,0,0,0)` and
`(1,0,0,0)`. The candidate of `(0,0,0,0)` has the computed deviation `0` and
wins the search, but its point on wire 0 has `y = 0`, so the corrector rejects
it and the reconstruction throws. The corrector accepts the candidate of
`(1,0,0,0)`. -/
theorem reconstruct_fails_despite_correctable_candidate :
    createTrackDescription exampleLibm Scratch.init timesOnCenterline quarterSpeed = none ∧
      getDepth (getDistances timesOnCenterline quarterSpeed) = 1 ∧
      (candidate timesOnCenterline (getDistances timesOnCenterline quarterSpeed)
          ![0, 0, 0, 0]).points
        = [⟨fin 41, fin 0⟩, ⟨fin 51, fin (15 / 4)⟩, ⟨fin 61, fin (15 / 2)⟩,
            ⟨fin 71, fin (45 / 4)⟩] ∧
      (candidate timesOnCenterline (getDistances timesOnCenterline quarterSpeed)
          ![0, 0, 0, 0]).deviation = fin 0 ∧
      systemError exampleLibm
          (candidate timesOnCenterline (getDistances timesOnCenterline quarterSpeed)
            ![0, 0, 0, 0]) = none ∧
      ![1, 0, 0, 0] ∈
        combinations (fun w => (getDistances timesOnCenterline quarterSpeed w).length) ∧
      (systemError exampleLibm
          (candidate timesOnCenterline (getDistances timesOnCenterline quarterSpeed)
            ![1, 0, 0, 0])).isSome = true := by
  decide!

/-- C2, amended. The reconstruction fails when the event is not eligible. On an
eligible event, either no index combination has a candidate whose computed
deviation is below `+inf` (overflow) and the reconstruction fails, or the index
combinations split around one combination `ind` whose candidate has a computed
deviation below `+inf`, strictly below that of every earlier combination and
not above that of any later one, and the reconstruction is exactly the
systematic corrector applied to that one candidate: it returns a track when
the corrector accepts this candidate and fails when the corrector rejects it,
whatever the other combinations would yield. -/
theorem reconstruct_corrects_first_least_candidate (m : Libm) (s : Scratch) (hs : ScratchOk s)
    (eventTimes : ChamberTimes) (chamDesc : ChamberParameters) :
    (getDepth (getDistances eventTimes chamDesc) ≠ 1 →
        createTrackDescription m s eventTimes chamDesc = none) ∧
      (getDepth (getDistances eventTimes chamDesc) = 1 →
        ((∀ ind ∈ combinations (fun w => (getDistances eventTimes chamDesc w).length),
              (candidate eventTimes (getDistances eventTimes chamDesc) ind).deviation.lt posInf
                = false) ∧
            createTrackDescription m s eventTimes chamDesc = none) ∨
          ∃ l1 ind l2,
            combinations (fun w => (getDistances eventTimes chamDesc w).length)
              = l1 ++ ind :: l2 ∧
            (candidate eventTimes (getDistances eventTimes chamDesc) ind).deviation.lt posInf
              = true ∧
            (∀ j ∈ l1,
              (candidate eventTimes (getDistances eventTimes chamDesc) ind).deviation.lt
                (candidate eventTimes (getDistances eventTimes chamDesc) j).deviation = true) ∧
            (∀ j ∈ l2,
              (candidate eventTimes (getDistances eventTimes chamDesc) j).deviation.lt
                (candidate eventTimes (getDistances eventTimes chamDesc) ind).deviation = false) ∧
            createTrackDescription m s eventTimes chamDesc =
              systemError m (candidate eventTimes (getDistances eventTimes chamDesc) ind)) :=
  ⟨reconstruct_ineligible m s eventTimes chamDesc,
    reconstruct_outcome m s hs eventTimes chamDesc⟩

theorem reconstruct_corrects_first_least_candidate_witness :
    (getDepth (getDistances timesOnCenterline quarterSpeed) ≠ 1 →
        createTrackDescription exampleLibm Scratch.init timesOnCenterline quarterSpeed = none) ∧
      (getDepth (getDistances timesOnCenterline quarterSpeed) = 1 →
        ((∀ ind ∈ combinations (fun w => (getDistances timesOnCenterline quarterSpeed w).length),
              (candidate timesOnCenterline (getDistances timesOnCenterline quarterSpeed)
                ind).deviation.lt posInf = false) ∧
            createTrackDescription exampleLibm Scratch.init timesOnCenterline quarterSpeed
              = none) ∨
          ∃ l1 ind l2,
            combinations (fun w => (getDistances timesOnCenterline quarterSpeed w).length)
              = l1 ++ ind :: l2 ∧
            (candidate timesOnCenterline (getDistances timesOnCenterline quarterSpeed)
              ind).deviation.lt posInf = true ∧
            (∀ j ∈ l1,
              (candidate timesOnCenterline (getDistances timesOnCenterline quarterSpeed)
                  ind).deviation.lt
                (candidate timesOnCenterline (getDistances timesOnCenterline quarterSpeed)
                  j).deviation = true) ∧
            (∀ j ∈ l2,
              (candidate timesOnCenterline (getDistances timesOnCenterline quarterSpeed)
                  j).deviation.lt
                (candidate timesOnCenterline (getDistances timesOnCenterline quarterSpeed)
                  ind).deviation = false) ∧
            createTrackDescription exampleLibm Scratch.init timesOnCenterline quarterSpeed =
              systemError exampleLibm
                (candidate timesOnCenterline (getDistances timesOnCenterline quarterSpeed)
                  ind)) :=
  reconstruct_corrects_first_least_candidate exampleLibm Scratch.init (by decide)
    timesOnCenterline quarterSpeed

end ieee

end trek
